import Mathlib

/-!
# Verification of the `offline_fs` core

Shallow embedding of the repository's core: the indexing engine and query
helpers of `file_system.py` (class `FileSystem` and its peewee models) and
the navigation shell of `fsshell.py` (class `FsShell`).

Modelling conventions, fixed once for the whole file:

* The SQLite/peewee entity store is a `Store` record of lists, one list per
  table, kept in row-insertion order (which is also rowid order).  A peewee
  `Model.create` call is an append.  `AutoField` ids are modelled by the
  `nextInodeId` counter; the first created `Inode` row receives id 1, which
  is the synthetic root (`FileSystem.__init__`).
* An inode reference is identified with its integer id.  (peewee coerces
  model instances to their primary key inside queries, so id semantics is
  what the program computes with.)  `INVALID_INODE` is `-1` in the source;
  since real ids start at 1 we model the sentinel as `0`, which is likewise
  never a valid id and is compared only for (in)equality.
* OS calls are modelled by data carried with the input: a directory entry
  (`FsEntry`) carries the answers `os.scandir`/`DirEntry` would give
  (`is_dir`, `is_file`, `is_symlink` — each after following symlinks, as in
  the source), the `os.stat` result as `Option FileStat` (`none` models
  `FileNotFoundError`, fatal), and a `denied` flag meaning `os.scandir` on
  this directory raises `PermissionError`.  `pwd.getpwuid`/`grp.getgrgid`
  are parameters `ru rg : Nat → Option String` (`none` models `KeyError`).
* Timestamps are carried through as plain numbers (`datetime.fromtimestamp`
  is injective on them and no code computes with them).
* `with db.atomic()` wraps only the `while stack` loop in `FileSystem.index`;
  on an uncaught exception inside it the transaction rolls back every table
  row written since the transaction began, while the `lru_cache` memo of
  `get_or_create_user` / `get_or_create_group` (a Python-process cache) is
  not rolled back.  `rollbackTo` models exactly that.
* `FileSystem.index` pops the Python stack from the end (`stack[-1]`) and
  appends pushes.  The model keeps the stack top-first: popping takes the
  head and the pushes of one directory are prepended in reverse order,
  which is the same LIFO order the source executes.
* `shlex.split` is modelled for quote-free input (the only kind the claims
  involve) as whitespace splitting that drops empty pieces.
-/

namespace OfflineFs

/-- `INVALID_INODE` sentinel (source value `-1`; modelled as `0`, see header). -/
def INVALID_INODE : Nat := 0

/-- `InodeType.FILE` (`IntFlag` `auto()` values: FILE=1, DIRECTORY=2,
DEVICE=4, SOFTLINK=8, HARDLINK=16). -/
def FILE : Nat := 1

/-- `InodeType.DIRECTORY`. -/
def DIRECTORY : Nat := 2

/-- `InodeType.SOFTLINK`. -/
def SOFTLINK : Nat := 8

/-- Result of `os.stat` as consumed by `FileSystem.get_stat`. -/
structure FileStat where
  size : Nat
  uid : Nat
  gid : Nat
  mode : Nat
  ctime : Nat
  mtime : Nat
deriving Repr, DecidableEq

/-- One row of the `Inode` table. -/
structure InodeRec where
  id : Nat
  node_type : Nat
  name : String
  size : Nat
  created_time : Nat
  modified_time : Nat
  owner : Nat
  group : Nat
  owner_permission : Nat
  group_permission : Nat
deriving Repr, DecidableEq

/-- The entity store: one list per peewee table, in insertion order, plus the
`AutoField` counter for `Inode` and the two `lru_cache` memo sets of
`FileSystem.get_or_create_user` / `get_or_create_group` (process state that
lives alongside the database and survives transaction rollback). -/
structure Store where
  users : List (Nat × String)
  groups : List (Nat × String)
  inodes : List InodeRec
  dirEdges : List (Nat × Nat)
  ancPairs : List (Nat × Nat)
  fullPaths : List (Nat × String)
  nextInodeId : Nat
  userCache : List Nat
  groupCache : List Nat
deriving Repr, DecidableEq

/-- Id of the synthetic root inode (first `AutoField` value). -/
def rootInodeId : Nat := 1

/-- The root inode row created by `FileSystem.__init__` on a fresh database:
type `DIRECTORY`, name `/`, size 0, owner/group foreign keys `0`,
permissions 0.  (The `datetime.now()` timestamps are modelled as 0; nothing
reads them.) -/
def rootRec : InodeRec :=
  { id := rootInodeId, node_type := DIRECTORY, name := "/", size := 0,
    created_time := 0, modified_time := 0, owner := 0, group := 0,
    owner_permission := 0, group_permission := 0 }

/-- The store `FileSystem.__init__` builds on a fresh database: the synthetic
root inode and its `FullPath` row `/`. -/
def initStore : Store :=
  { users := [], groups := [], inodes := [rootRec], dirEdges := [],
    ancPairs := [], fullPaths := [(rootInodeId, "/")], nextInodeId := 2,
    userCache := [], groupCache := [] }

/-- Errors surfaced by `FileSystem` operations.  `parameterError` is
`ParameterException`, `duplicateIndex` is `DuplicateIndexException`,
`pathNotFound` is the `FileNotFoundError` an `os.stat` raises for a vanished
path, `identityNotFound` the `KeyError` of `pwd.getpwuid`/`grp.getgrgid`. -/
inductive IndexErr where
  | parameterError
  | duplicateIndex
  | pathNotFound
  | identityNotFound
deriving Repr, DecidableEq

/-- `FileSystem.get_or_create_user` (with its `lru_cache`): a cache hit skips
the body; otherwise an existing row with this id is returned as is, else the
name is resolved via `pwd.getpwuid` and a new row persisted.  A raise from
the resolver is not cached.  Returns the store (unchanged on error) and the
uid. -/
def get_or_create_user (ru : Nat → Option String) (s : Store) (uid : Nat) :
    Store × Except IndexErr Nat :=
  if uid ∈ s.userCache then (s, .ok uid)
  else if s.users.any (fun u => u.1 == uid) then
    ({ s with userCache := uid :: s.userCache }, .ok uid)
  else
    match ru uid with
    | none => (s, .error .identityNotFound)
    | some nm =>
      ({ s with users := s.users ++ [(uid, nm)],
                userCache := uid :: s.userCache }, .ok uid)

/-- `FileSystem.get_or_create_group`, same shape as `get_or_create_user`. -/
def get_or_create_group (rg : Nat → Option String) (s : Store) (gid : Nat) :
    Store × Except IndexErr Nat :=
  if gid ∈ s.groupCache then (s, .ok gid)
  else if s.groups.any (fun g => g.1 == gid) then
    ({ s with groupCache := gid :: s.groupCache }, .ok gid)
  else
    match rg gid with
    | none => (s, .error .identityNotFound)
    | some nm =>
      ({ s with groups := s.groups ++ [(gid, nm)],
                groupCache := gid :: s.groupCache }, .ok gid)

/-- `FileSystem.parse_owner_permission`: owner bits of `st_mode`
(`S_IXUSR`=0o100, `S_IWUSR`=0o200, `S_IRUSR`=0o400) to the `Permission`
flags EXECUTABLE=1, WRITE=2, READ=4. -/
def parse_owner_permission (mode : Nat) : Nat :=
  (if mode &&& 64 ≠ 0 then 1 else 0) +
  (if mode &&& 128 ≠ 0 then 2 else 0) +
  (if mode &&& 256 ≠ 0 then 4 else 0)

/-- `FileSystem.parse_group_permission`: group bits of `st_mode`
(`S_IXGRP`=0o10, `S_IWGRP`=0o20, `S_IRGRP`=0o40). -/
def parse_group_permission (mode : Nat) : Nat :=
  (if mode &&& 8 ≠ 0 then 1 else 0) +
  (if mode &&& 16 ≠ 0 then 2 else 0) +
  (if mode &&& 32 ≠ 0 then 4 else 0)

/-- `FileSystem.create_inode(name, path, inode_type, full_path)`.  The
`os.stat` answer for `path` is passed as `st?`; `absPath` is what
`os.path.abspath(path)` would give (used only by the dead `full_path == ''`
fallback, kept for fidelity).  Owner then group are resolved (argument
evaluation order of `Inode.create`); a failure there leaves the rows written
so far in place (all this runs in autocommit or inside the caller's
transaction).  On success the new `Inode` row and its `FullPath` row are
appended and the fresh id returned. -/
def create_inode (ru rg : Nat → Option String) (s : Store)
    (name absPath : String) (st? : Option FileStat) (inode_type : Nat)
    (full_path : String) : Store × Except IndexErr Nat :=
  match st? with
  | none => (s, .error .pathNotFound)
  | some st =>
    match get_or_create_user ru s st.uid with
    | (s1, .error e) => (s1, .error e)
    | (s1, .ok owner) =>
      match get_or_create_group rg s1 st.gid with
      | (s2, .error e) => (s2, .error e)
      | (s2, .ok grp) =>
        let iid := s2.nextInodeId
        let row : InodeRec :=
          { id := iid, node_type := inode_type, name := name,
            size := st.size, created_time := st.ctime,
            modified_time := st.mtime, owner := owner, group := grp,
            owner_permission := parse_owner_permission st.mode,
            group_permission := parse_group_permission st.mode }
        let fp := if full_path ≠ "" then full_path else absPath
        ({ s2 with inodes := s2.inodes ++ [row],
                   nextInodeId := iid + 1,
                   fullPaths := s2.fullPaths ++ [(iid, fp)] }, .ok iid)

/-- `FileSystem.link_parent`: append one `Directory` row. -/
def link_parent (s : Store) (parent child : Nat) : Store :=
  { s with dirEdges := s.dirEdges ++ [(parent, child)] }

/-- `FileSystem.link_ancestors`: one `Ancestor` row per entry of the
ancestor chain. -/
def link_ancestors (s : Store) (ancestors : List Nat) (inode : Nat) : Store :=
  { s with ancPairs := s.ancPairs ++ ancestors.map (fun a => (a, inode)) }

/-- A directory entry as `os.scandir` reports it: its name, the three
classification answers (`DirEntry.is_dir` / `is_file` / `is_symlink`, the
first two following symlinks as in the source), the `os.stat` result,
whether `os.scandir` on it raises `PermissionError`, and — when it is (or
links to) a directory — the entries of that directory. -/
inductive FsEntry : Type where
  | node (name : String) (isDir isFile isSymlink : Bool)
    (st : Option FileStat) (denied : Bool) (children : List FsEntry)

/-- Name of an entry. -/
def FsEntry.name : FsEntry → String
  | .node n _ _ _ _ _ _ => n

/-- `DirEntry.is_dir()` answer. -/
def FsEntry.isDir : FsEntry → Bool
  | .node _ d _ _ _ _ _ => d

/-- `DirEntry.is_file()` answer. -/
def FsEntry.isFile : FsEntry → Bool
  | .node _ _ f _ _ _ _ => f

/-- `DirEntry.is_symlink()` answer. -/
def FsEntry.isSymlink : FsEntry → Bool
  | .node _ _ _ l _ _ _ => l

/-- `os.stat` answer for the entry (`none` = `FileNotFoundError`). -/
def FsEntry.st : FsEntry → Option FileStat
  | .node _ _ _ _ s _ _ => s

/-- Whether `os.scandir` on this entry raises `PermissionError`. -/
def FsEntry.denied : FsEntry → Bool
  | .node _ _ _ _ _ dn _ => dn

/-- Entries of the directory this entry denotes (after link resolution). -/
def FsEntry.children : FsEntry → List FsEntry
  | .node _ _ _ _ _ _ cs => cs

/-- The entry classification of the loop body of `FileSystem.index`:
`inode_type` starts at `InodeType(0)` and the first matching predicate of
`is_dir` / `is_file` / `is_symlink` wins; `0` means the entry is skipped. -/
def classifyEntry (e : FsEntry) : Nat :=
  if e.isDir then DIRECTORY else if e.isFile then FILE
  else if e.isSymlink then SOFTLINK else 0

/-- `str(PurePath(a) / b)` for an absolute `a` and relative single-step `b`
as used when forming entry paths: plain join except below the filesystem
root. -/
def joinPath (a b : String) : String :=
  if a = "/" then "/" ++ b else a ++ "/" ++ b

/-- One element of the traversal stack of `FileSystem.index`.  The source
stores `(entry.path, inode, ancestors)`; the model carries, instead of the
real path, everything the OS would answer for it (`denied`, `children`)
plus the real path `apath` and the virtual path `vdir` (the source
recomputes the latter from `entry.path.relative_to(path)`; carrying it is
the same computation done incrementally). -/
structure StackItem where
  apath : String
  vdir : String
  inodeId : Nat
  ancestors : List Nat
  denied : Bool
  children : List FsEntry

mutual

/-- Size of an entry (for the traversal termination measure). -/
def entrySize : FsEntry → Nat
  | .node _ _ _ _ _ _ cs => 1 + entryListSize cs

/-- Size of an entry list. -/
def entryListSize : List FsEntry → Nat
  | [] => 0
  | e :: es => entrySize e + entryListSize es

end

/-- Termination weight of one stack element. -/
def itemMeasure (it : StackItem) : Nat := 1 + entryListSize it.children

/-- Termination weight of the whole stack. -/
def stackMeasure : List StackItem → Nat
  | [] => 0
  | it :: l => itemMeasure it + stackMeasure l

theorem stackMeasure_append (l1 l2 : List StackItem) :
    stackMeasure (l1 ++ l2) = stackMeasure l1 + stackMeasure l2 := by
  induction l1 with
  | nil => simp [stackMeasure]
  | cons it l ih => simp [stackMeasure, ih]; omega

theorem stackMeasure_reverse (l : List StackItem) :
    stackMeasure l.reverse = stackMeasure l := by
  induction l with
  | nil => rfl
  | cons it l ih =>
    simp [List.reverse_cons, stackMeasure_append, stackMeasure, ih]; omega

/-- The `for entry in os.scandir(visiting)` body of `FileSystem.index`, run
over the (already enumerated) entries of the directory being visited.
`ancestors` is the chain after the `ancestors.append(visiting_inode)` of the
source, i.e. it ends with `visitingInode`.  Each recognized entry gets its
inode created, a `Directory` edge from the visited inode and one `Ancestor`
row per chain element; directories are also queued.  An exception from
`create_inode` aborts the iteration, surfacing the store as written so far;
queued items gathered before the failure are abandoned (the source's stack
dies with the propagating exception). -/
def processEntries (ru rg : Nat → Option String) (s : Store)
    (visitingApath visitingVdir : String) (visitingInode : Nat)
    (ancestors : List Nat) :
    List FsEntry → Store × Except IndexErr (List StackItem)
  | [] => (s, .ok [])
  | e :: rest =>
    let itype := classifyEntry e
    if itype ≠ 0 then
      let eap := joinPath visitingApath e.name
      let evp := joinPath visitingVdir e.name
      match create_inode ru rg s e.name eap e.st itype evp with
      | (s1, .error err) => (s1, .error err)
      | (s1, .ok iid) =>
        let s2 := link_parent s1 visitingInode iid
        let s3 := link_ancestors s2 ancestors iid
        let pushes : List StackItem :=
          if itype = DIRECTORY then
            [⟨eap, evp, iid, ancestors, e.denied, e.children⟩] else []
        match processEntries ru rg s3 visitingApath visitingVdir
            visitingInode ancestors rest with
        | (s4, .error err) => (s4, .error err)
        | (s4, .ok ps) => (s4, .ok (pushes ++ ps))
    else
      processEntries ru rg s visitingApath visitingVdir visitingInode
        ancestors rest

theorem entrySize_def (e : FsEntry) :
    entrySize e = 1 + entryListSize e.children := by
  cases e with
  | node n d f l st dn cs => simp [entrySize, FsEntry.children]

theorem one_le_entrySize (e : FsEntry) : 1 ≤ entrySize e := by
  rw [entrySize_def]; omega

theorem entryListSize_cons (e : FsEntry) (es : List FsEntry) :
    entryListSize (e :: es) = entrySize e + entryListSize es := by
  simp [entryListSize]

theorem processEntries_measure :
    ∀ (es : List FsEntry) (ru rg : Nat → Option String) (s : Store)
      (ap vp : String) (vi : Nat) (ancs : List Nat) (s' : Store)
      (ps : List StackItem),
      processEntries ru rg s ap vp vi ancs es = (s', .ok ps) →
      stackMeasure ps ≤ entryListSize es := by
  intro es
  induction es with
  | nil =>
    intro ru rg s ap vp vi ancs s' ps h
    simp only [processEntries, Prod.mk.injEq, Except.ok.injEq] at h
    obtain ⟨h1, h2⟩ := h
    simp [← h2, stackMeasure]
  | cons e rest ih =>
    intro ru rg s ap vp vi ancs s' ps h
    simp only [processEntries] at h
    by_cases hc : classifyEntry e ≠ 0
    · rw [if_pos hc] at h
      rcases hci : create_inode ru rg s e.name (joinPath ap e.name) e.st
          (classifyEntry e) (joinPath vp e.name) with ⟨s1, res⟩
      rw [hci] at h
      cases res with
      | error err => simp at h
      | ok iid =>
        dsimp only at h
        rcases hrest : processEntries ru rg
            (link_ancestors (link_parent s1 vi iid) ancs iid) ap vp vi ancs
            rest with ⟨s4, res4⟩
        rw [hrest] at h
        cases res4 with
        | error err => simp at h
        | ok ps4 =>
          dsimp only at h
          simp only [Prod.mk.injEq, Except.ok.injEq] at h
          have hps := h.2
          have hle := ih ru rg _ ap vp vi ancs s4 ps4 hrest
          have hes := entryListSize_cons e rest
          have hee := entrySize_def e
          rw [← hps, stackMeasure_append]
          by_cases hd : classifyEntry e = DIRECTORY
          · simp only [if_pos hd, stackMeasure, itemMeasure]
            omega
          · simp only [if_neg hd, stackMeasure]
            omega
    · rw [if_neg hc] at h
      have hle := ih ru rg s ap vp vi ancs s' ps h
      have hes := entryListSize_cons e rest
      have := one_le_entrySize e
      omega

/-- The `while stack:` loop of `FileSystem.index`, written with an explicit
fuel counter so that it is structurally recursive (and hence computable by
the kernel).  The stack is kept top-first (the source keeps it top-last and
pops `stack[-1]`): one element is popped, its ancestor chain extended with
its own inode, and its entries are enumerated — a `PermissionError` (the
`denied` flag) skips the whole directory and the loop continues; any other
exception stops the loop and is surfaced together with the store as written
at that point (the caller's transaction handling decides what survives).
The fuel only ever decreases as fast as `stackMeasure`, so a run started
with fuel `stackMeasure stack` (see `indexLoop`) never reaches the
out-of-fuel branch — `indexLoopF_measure_le` below proves the fuel
irrelevant. -/
def indexLoopF (ru rg : Nat → Option String) :
    Nat → Store → List StackItem → Store × Option IndexErr
  | _, s, [] => (s, none)
  | 0, s, _ :: _ => (s, none)
  | fuel + 1, s, item :: rest =>
    if item.denied then
      indexLoopF ru rg fuel s rest
    else
      match processEntries ru rg s item.apath item.vdir item.inodeId
          (item.ancestors ++ [item.inodeId]) item.children with
      | (s1, .error e) => (s1, some e)
      | (s1, .ok pushed) => indexLoopF ru rg fuel s1 (pushed.reverse ++ rest)

/-- The `while stack:` loop, run with exactly enough fuel. -/
def indexLoop (ru rg : Nat → Option String) (s : Store)
    (stack : List StackItem) : Store × Option IndexErr :=
  indexLoopF ru rg (stackMeasure stack) s stack

/-- Fuel irrelevance: any two fuel amounts at least `stackMeasure stack`
give the same run, so `indexLoop` is the fixpoint the Python `while` loop
computes. -/
theorem indexLoopF_measure_le :
    ∀ (f1 : Nat) (stack : List StackItem) (f2 : Nat)
      (ru rg : Nat → Option String) (s : Store),
      stackMeasure stack ≤ f1 → stackMeasure stack ≤ f2 →
      indexLoopF ru rg f1 s stack = indexLoopF ru rg f2 s stack := by
  intro f1
  induction f1 with
  | zero =>
    intro stack f2 ru rg s h1 h2
    cases stack with
    | nil => cases f2 <;> rfl
    | cons item rest =>
      exfalso
      simp [stackMeasure, itemMeasure] at h1
  | succ n ih =>
    intro stack f2 ru rg s h1 h2
    cases stack with
    | nil => cases f2 <;> rfl
    | cons item rest =>
      cases f2 with
      | zero =>
        exfalso
        simp [stackMeasure, itemMeasure] at h2
      | succ m =>
        simp only [indexLoopF]
        by_cases hd : item.denied
        · simp only [hd, if_true]
          refine ih rest m ru rg s ?_ ?_
          · simp only [stackMeasure, itemMeasure] at h1
            omega
          · simp only [stackMeasure, itemMeasure] at h2
            omega
        · simp only [hd, if_false, Bool.false_eq_true]
          rcases hpe : processEntries ru rg s item.apath item.vdir
              item.inodeId (item.ancestors ++ [item.inodeId]) item.children
            with ⟨s1, res⟩
          cases res with
          | error e => rfl
          | ok pushed =>
            dsimp only
            have hple := processEntries_measure item.children ru rg s
              item.apath item.vdir item.inodeId
              (item.ancestors ++ [item.inodeId]) s1 pushed hpe
            refine ih (pushed.reverse ++ rest) m ru rg s1 ?_ ?_
            · simp only [stackMeasure_append, stackMeasure_reverse]
              simp only [stackMeasure, itemMeasure] at h1
              omega
            · simp only [stackMeasure_append, stackMeasure_reverse]
              simp only [stackMeasure, itemMeasure] at h2
              omega

/-- Split a string at separator characters, keeping empty pieces (the
behaviour of Python `str.split(sep)` with a one-character separator),
written over the character list so that it evaluates inside the kernel. -/
def splitKeep (p : Char → Bool) : List Char → List Char → List String
  | [], acc => [String.mk acc.reverse]
  | c :: cs, acc =>
    if p c then String.mk acc.reverse :: splitKeep p cs []
    else splitKeep p cs (c :: acc)

/-- `PurePath(p).name` for a normalized absolute path (last component). -/
def basename (p : String) : String :=
  (splitKeep (fun c => c == '/') p.data []).getLastD ""

/-- The duplicate-index query of `FileSystem.index`: is there an `Inode` row
with the root id joined through a `Directory` edge to a child whose
`FullPath.path` equals `str(path)` (the *absolute* input path)? -/
def existsIndexFor (s : Store) (pathStr : String) : Bool :=
  s.dirEdges.any fun ed =>
    ed.1 == rootInodeId &&
      s.fullPaths.any fun fp => fp.1 == ed.2 && fp.2 == pathStr

/-- The directory handed to one `FileSystem.index(path)` call: its
`os.path.abspath`, whether `os.path.isdir` holds, and the OS answers for it
(stat, scandir permission, entries). -/
structure RootDir where
  apath : String
  isDirPath : Bool
  st : Option FileStat
  denied : Bool
  children : List FsEntry

/-- Transaction rollback at the `with db.atomic()` boundary: every table
reverts to the snapshot taken when the transaction began, while the
process-level `lru_cache` memo sets keep whatever the failed run put in
them. -/
def rollbackTo (snap cur : Store) : Store :=
  { snap with userCache := cur.userCache, groupCache := cur.groupCache }

/-- `FileSystem.index(path)`: reject non-directories, run the duplicate
query against the absolute path, create the subtree root inode under the
virtual path `/` + basename, link it below the synthetic root — all in
autocommit mode — then run the traversal loop inside `db.atomic()`,
rolling its writes back if it raises. -/
def index (ru rg : Nat → Option String) (s : Store) (r : RootDir) :
    Store × Option IndexErr :=
  if ¬ r.isDirPath then (s, some .parameterError)
  else if existsIndexFor s r.apath then (s, some .duplicateIndex)
  else
    let nm := basename r.apath
    let new_root_path := "/" ++ nm
    match create_inode ru rg s nm r.apath r.st DIRECTORY new_root_path with
    | (s', .error e) => (s', some e)
    | (s1, .ok root_inode) =>
      let s2 := link_parent s1 rootInodeId root_inode
      let stack0 : List StackItem :=
        [⟨r.apath, new_root_path, root_inode, [], r.denied, r.children⟩]
      match indexLoop ru rg s2 stack0 with
      | (sf, none) => (sf, none)
      | (sf, some e) => (rollbackTo s2 sf, some e)

/-! ## Query helpers of `FileSystem` -/

/-- `FileSystem.is_dir`: is there an `Inode` row with this id and
`node_type == int(InodeType.DIRECTORY)`? -/
def is_dir (s : Store) (inode_id : Nat) : Bool :=
  s.inodes.any fun i => i.id == inode_id && i.node_type == DIRECTORY

/-- `FileSystem.get_full_path`: first `FullPath.path` for this inode,
`None` when there is none. -/
def get_full_path (s : Store) (inode_id : Nat) : Option String :=
  match s.fullPaths.filter (fun fp => fp.1 == inode_id) with
  | [] => none
  | fp :: _ => some fp.2

/-- `FileSystem.list_inode(inode_id, get_self=False)`: `None` when the inode
does not exist; for a directory without `get_self`, the rows of
`Inode JOIN Directory ON Directory.child == Inode.id WHERE Directory.inode
== inode_id` (modelled in `Inode`-rowid order, which for stores built by
`index` coincides with edge-insertion order); otherwise the single row. -/
def list_inode (s : Store) (inode_id : Nat) (get_self : Bool := false) :
    Option (List InodeRec) :=
  match s.inodes.filter (fun i => i.id == inode_id) with
  | [] => none
  | i :: _ =>
    if i.node_type == DIRECTORY && !get_self then
      some (s.inodes.filter fun c =>
        s.dirEdges.any fun ed => ed.1 == inode_id && ed.2 == c.id)
    else
      some [i]

/-- `FileSystem.get_parent_inode_id`: the `Directory.inode` of the first
edge whose child is this inode, else `INVALID_INODE`. -/
def get_parent_inode_id (s : Store) (inode_id : Nat) : Nat :=
  match s.dirEdges.filter (fun ed => ed.2 == inode_id) with
  | [] => INVALID_INODE
  | ed :: _ => ed.1

/-! ## The navigation shell (`fsshell.py`) -/

/-- The mutable cursor state of `FsShell`: `_current_inode` and
`_last_inode`.  The cached `_current_children` list is not carried: it is
refreshed exactly when `_current_inode` changes (`change_directory`), so it
always equals `list_inode` of the current inode, which is how the model
reads it. -/
structure ShellState where
  current : Nat
  last : Nat
deriving Repr, DecidableEq

/-- Initial shell state: the constructor starts both fields at the root and
then calls `change_directory(root)`, which leaves `current = last = root`. -/
def initShell : ShellState := { current := rootInodeId, last := rootInodeId }

/-- `FsShell.change_directory`: refuse a no-op move (unless the target is
the root) and non-directories; otherwise commit `last ← current`,
`current ← target`.  Returns the source's boolean. -/
def change_directory (s : Store) (st : ShellState) (new_dir : Nat) :
    Bool × ShellState :=
  if st.current == new_dir && new_dir != rootInodeId then (false, st)
  else if ¬ is_dir s new_dir then (false, st)
  else (true, { current := new_dir, last := st.current })

/-- The children the shell's `_current_children` cache holds. -/
def currentChildren (s : Store) (st : ShellState) : List InodeRec :=
  (list_inode s st.current).getD []

/-- Failure cause of one `cd` segment: the source signals both by returning
`False` (plus a printed message in the missing-child case); the spec names
them `NoParent` and `NoSuchChild`. -/
inductive CdErr where
  | noParent
  | noSuchChild
deriving Repr, DecidableEq

/-- `FsShell.cd_from_current_dir(directory)`: empty and `.` segments are
no-ops; `..` moves to the parent when there is one (failing at the root);
any other segment must name a child of the current position, case-sensitive
(`children[0]` on a hit).  The boolean result of the inner
`change_directory` calls is ignored, as in the source. -/
def cd_from_current_dir (s : Store) (st : ShellState) (dir : String) :
    Except CdErr ShellState :=
  if dir = "" then .ok st
  else if dir = "." then .ok st
  else if dir = ".." then
    let parent := get_parent_inode_id s st.current
    if parent ≠ INVALID_INODE then .ok (change_directory s st parent).2
    else .error .noParent
  else
    match (currentChildren s st).filter (fun c => c.name == dir) with
    | [] => .error .noSuchChild
    | c :: _ => .ok (change_directory s st c.id).2

/-- The `for dir_name in path:` loop of `FsShell.do_cd`: run the segments
left to right, stopping at the first failure with the state reached at that
point. -/
def cdChain (s : Store) (st : ShellState) :
    List String → Except (CdErr × ShellState) ShellState
  | [] => .ok st
  | d :: rest =>
    match cd_from_current_dir s st d with
    | .ok st' => cdChain s st' rest
    | .error e => .error (e, st)

/-- Observable outcome of one `do_cd` call.  `tooManyArgs` stands for the
printed `Too many arguments`; `indexError` is the uncaught `IndexError`
that `args[0]` raises when `shlex.split(arg)` is empty; the `CdErr` values
are the segment failures after which the cursor is rolled back. -/
inductive DoCdErr where
  | tooManyArgs
  | indexError
  | noParent
  | noSuchChild
deriving Repr, DecidableEq

/-- `shlex.split` for quote-free input: whitespace-separated tokens. -/
def splitWs (s : String) : List String :=
  (splitKeep (fun c => c == ' ' || c == '\t') s.data []).filter
    (fun t => t ≠ "")

/-- `args[0].split('/')` (Python `str.split` keeps empty pieces). -/
def splitSlash (s : String) : List String :=
  splitKeep (fun c => c == '/') s.data []

/-- `FsShell.do_cd(arg)`.  Follows the source line by line: an empty `arg`
first moves to the synthetic root and then — because the branch does not
return — falls through to `args[0]` on the empty `shlex.split` result,
raising `IndexError` (the state mutation survives the exception).  A `-`
expression goes to `_last_inode` (the guard against `INVALID_INODE` can
never fire, `_last_inode` starts at the root).  Otherwise the pre-command
`_last_inode` and `_current_inode` are saved, the segments run, a failure
rolls the cursor back via `change_directory`, and `_last_inode` is restored
to its saved value unconditionally. -/
def do_cd (s : Store) (st : ShellState) (arg : String) :
    ShellState × Option DoCdErr :=
  let st0 := if arg = "" then (change_directory s st rootInodeId).2 else st
  match splitWs arg with
  | [] => (st0, some .indexError)
  | a0 :: restArgs =>
    if restArgs.length + 1 > 1 then (st0, some .tooManyArgs)
    else
      match splitSlash a0 with
      | [] => (st0, some .indexError)
      | p0 :: restPath =>
        if p0 = "-" then
          if restPath.length = 0 then
            if st0.last ≠ INVALID_INODE then
              ((change_directory s st0 st0.last).2, none)
            else (st0, none)
          else (st0, some .tooManyArgs)
        else
          let last_inode := st0.last
          let current_inode := st0.current
          match cdChain s st0 (p0 :: restPath) with
          | .ok st1 => ({ st1 with last := last_inode }, none)
          | .error (e, stf) =>
            let st2 := (change_directory s stf current_inode).2
            ({ st2 with last := last_inode },
              some (match e with
                    | .noParent => .noParent
                    | .noSuchChild => .noSuchChild))

/-! ## Specification vocabulary: the parent relation and its closure -/

/-- `edgeUp s c a`: the `Directory` table has the edge making `a` the
parent of `c`. -/
def edgeUp (s : Store) (c a : Nat) : Prop := (a, c) ∈ s.dirEdges

/-- `Anc s x a`: `a` is reachable from `x` by repeatedly following
`Directory`-edge parent links (at least one step). -/
def Anc (s : Store) (x a : Nat) : Prop := Relation.TransGen (edgeUp s) x a

/-- Structural well-formedness of the edges in every store the program
builds: ids start at 1, parents are created strictly before their children
(so edges increase), children are allocated ids below the `AutoField`
counter. -/
def EdgesOk (s : Store) : Prop :=
  2 ≤ s.nextInodeId ∧
  ∀ p c, (p, c) ∈ s.dirEdges → 1 ≤ p ∧ p < c ∧ c < s.nextInodeId

/-- The `Ancestor` table is exactly the parent-link closure with the
synthetic root left out. -/
def ClosureOk (s : Store) : Prop :=
  ∀ a x, (a, x) ∈ s.ancPairs ↔ (Anc s x a ∧ a ≠ rootInodeId)

/-- `t` extends `s` by appended rows only, every appended `Directory` edge
having a child at or above `s`'s id counter (freshly created inodes). -/
structure Grows (s t : Store) : Prop where
  users : ∃ l, t.users = s.users ++ l
  groups : ∃ l, t.groups = s.groups ++ l
  inodes : ∃ l, t.inodes = s.inodes ++ l
  dirEdges : ∃ l, t.dirEdges = s.dirEdges ++ l ∧
    ∀ pc ∈ l, s.nextInodeId ≤ pc.2
  ancPairs : ∃ l, t.ancPairs = s.ancPairs ++ l
  fullPaths : ∃ l, t.fullPaths = s.fullPaths ++ l
  nextId : s.nextInodeId ≤ t.nextInodeId

/-- Invariant of a pending stack element: its inode is an allocated
non-root id whose ancestor set is exactly its recorded chain plus the
synthetic root, and the chain avoids the root. -/
def ItemInv (s : Store) (it : StackItem) : Prop :=
  (∀ a, Anc s it.inodeId a ↔ (a ∈ it.ancestors ∨ a = rootInodeId)) ∧
  rootInodeId ∉ it.ancestors ∧ rootInodeId < it.inodeId ∧
  it.inodeId < s.nextInodeId

/-- Stores reachable by initializing a fresh database and running any
sequence of `index` invocations (successful or failed) against it. -/
inductive IndexReach (ru rg : Nat → Option String) : Store → Prop where
  | init : IndexReach ru rg initStore
  | step (s : Store) (r : RootDir) : IndexReach ru rg s →
      IndexReach ru rg (index ru rg s r).1

/-! ## Concrete example data -/

/-- Identity resolver standing in for `pwd.getpwuid` in concrete runs. -/
def ru0 : Nat → Option String := fun _ => some "alice"

/-- Identity resolver standing in for `grp.getgrgid` in concrete runs. -/
def rg0 : Nat → Option String := fun _ => some "staff"

/-- A plain `os.stat` answer (mode `0o755`). -/
def stat0 : FileStat :=
  { size := 10, uid := 1000, gid := 100, mode := 493, ctime := 5,
    mtime := 6 }

/-- Example input directory `/tmp/data` containing a subdirectory `b` (with
one file `f`) and a file `g`. -/
def exTree : RootDir :=
  { apath := "/tmp/data", isDirPath := true, st := some stat0,
    denied := false,
    children := [
      .node "b" true false false (some stat0) false
        [.node "f" false true false (some stat0) false []],
      .node "g" false true false (some stat0) false []] }

/-- The store after `index('/tmp/data')` on a fresh database: inodes
1 `/`, 2 `data`, 3 `b`, 4 `g`, 5 `f`; edges (1,2) (2,3) (2,4) (3,5);
ancestor pairs (2,3) (2,4) (2,5) (3,5). -/
def exStore : Store := (index ru0 rg0 initStore exTree).1

/-- Example input `/tmp/bad`: a file `ok1`, then a file `broken` whose
`os.stat` raises (the path vanished between enumeration and stat), making
the traversal loop fail fatally mid-way. -/
def badTree : RootDir :=
  { apath := "/tmp/bad", isDirPath := true, st := some stat0,
    denied := false,
    children := [
      .node "ok1" false true false (some stat0) false [],
      .node "broken" false true false none false []] }

/-- The store right after the (pre-transaction) creation of the subtree
root inode for `badTree`. -/
def badS1 : Store :=
  (create_inode ru0 rg0 initStore (basename badTree.apath) badTree.apath
    badTree.st DIRECTORY ("/" ++ basename badTree.apath)).1

/-- The store at the point the traversal loop over `badTree` raises. -/
def badSf : Store :=
  (indexLoop ru0 rg0 (link_parent badS1 rootInodeId 2)
    [⟨badTree.apath, "/" ++ basename badTree.apath, 2, [], badTree.denied,
      badTree.children⟩]).1

/-- Example input `/data`: a directory directly below the filesystem root,
the one situation where the absolute path coincides with the virtual full
path. -/
def slashTree : RootDir :=
  { apath := "/data", isDirPath := true, st := some stat0,
    denied := false, children := [] }

/-- The store after `index('/data')` on a fresh database. -/
def slashStore : Store := (index ru0 rg0 initStore slashTree).1

/-- Number of `User` rows carrying a given numeric id. -/
def countUsers (s : Store) (uid : Nat) : Nat :=
  (s.users.filter (fun u => u.1 == uid)).length

/-- Number of `Group` rows carrying a given numeric id. -/
def countGroups (s : Store) (gid : Nat) : Nat :=
  (s.groups.filter (fun g => g.1 == gid)).length

/-- `n` repeated `get_or_create_user` calls with the same id. -/
def iterUser (ru : Nat → Option String) (uid : Nat) : Nat → Store → Store
  | 0, s => s
  | n + 1, s => iterUser ru uid n (get_or_create_user ru s uid).1

/-- `n` repeated `get_or_create_group` calls with the same id. -/
def iterGroup (rg : Nat → Option String) (gid : Nat) : Nat → Store → Store
  | 0, s => s
  | n + 1, s => iterGroup rg gid n (get_or_create_group rg s gid).1

/-- Health of the user registry for one id: a memo-cache hit implies a
stored row (true in every state the program reaches without a transaction
rollback between runs), and at most one row carries the id (enforced by
the primary key). -/
def UserOk (s : Store) (uid : Nat) : Prop :=
  (uid ∈ s.userCache → s.users.any (fun u => u.1 == uid) = true) ∧
  countUsers s uid ≤ 1

/-- Health of the group registry for one id. -/
def GroupOk (s : Store) (gid : Nat) : Prop :=
  (gid ∈ s.groupCache → s.groups.any (fun g => g.1 == gid) = true) ∧
  countGroups s gid ≤ 1

mutual

/-- Benign-environment predicate for one entry: if the entry is of a
recognized kind its `os.stat` succeeds and its owner and group resolve; if
it is a readable directory the same holds below it.  Entries below a
permission-denied directory are unconstrained — they are never touched. -/
def goodEntry (ru rg : Nat → Option String) : FsEntry → Bool
  | .node _ d f l st dn cs =>
    (if d || f || l then
      (match st with
       | none => false
       | some m => (ru m.uid).isSome && (rg m.gid).isSome)
     else true) &&
    (if d && !dn then goodEntries ru rg cs else true)

/-- `goodEntry` over a list of siblings. -/
def goodEntries (ru rg : Nat → Option String) : List FsEntry → Bool
  | [] => true
  | e :: es => goodEntry ru rg e && goodEntries ru rg es

end

/-- Benign environment for a whole `index` call: the root's stat succeeds
and resolves, and unless the root itself is unreadable its entries are
good. -/
def goodRoot (ru rg : Nat → Option String) (r : RootDir) : Bool :=
  (match r.st with
   | none => false
   | some m => (ru m.uid).isSome && (rg m.gid).isSome) &&
  (r.denied || goodEntries ru rg r.children)

/-- The entry sitting at a child-index path below a list of entries. -/
def entryAtL (es : List FsEntry) : List Nat → Option FsEntry
  | [] => none
  | i :: π =>
    match es[i]? with
    | none => none
    | some e => if π = [] then some e else entryAtL e.children π

/-- Whether the traversal can reach the entry at this position: every
proper prefix of the position names a readable (non-denied) directory. -/
def visOk (es : List FsEntry) : List Nat → Bool
  | [] => true
  | i :: π =>
    if π = [] then true
    else
      match es[i]? with
      | none => false
      | some e => e.isDir && !e.denied && visOk e.children π

/-- Virtual full path of the entry at a position, starting from the
virtual path of the containing directory. -/
def vpathAt (base : String) (es : List FsEntry) : List Nat → String
  | [] => base
  | i :: π =>
    match es[i]? with
    | none => base
    | some e => vpathAt (joinPath base e.name) e.children π

/-- Example input `/tmp/den`: a permission-denied subdirectory `locked`
(with an entry `hidden` behind the denial), a sibling file `sib`, and a
sibling symlink `sub` whose target is a readable directory containing
`inner`. -/
def denTree : RootDir :=
  { apath := "/tmp/den", isDirPath := true, st := some stat0,
    denied := false,
    children := [
      .node "locked" true false false (some stat0) true
        [.node "hidden" false true false (some stat0) false []],
      .node "sib" false true false (some stat0) false [],
      .node "sub" true false true (some stat0) false
        [.node "inner" false true false (some stat0) false []]] }

/-! ## Theorems -/

theorem Grows.refl (s : Store) : Grows s s :=
  ⟨⟨[], by simp⟩, ⟨[], by simp⟩, ⟨[], by simp⟩, ⟨[], by simp⟩,
   ⟨[], by simp⟩, ⟨[], by simp⟩, le_refl _⟩

theorem Grows.trans {s t u : Store} (h1 : Grows s t) (h2 : Grows t u) :
    Grows s u := by
  obtain ⟨⟨lu1, hu1⟩, ⟨lg1, hg1⟩, ⟨li1, hi1⟩, ⟨le1, he1, hf1⟩, ⟨la1, ha1⟩,
    ⟨lp1, hp1⟩, hn1⟩ := h1
  obtain ⟨⟨lu2, hu2⟩, ⟨lg2, hg2⟩, ⟨li2, hi2⟩, ⟨le2, he2, hf2⟩, ⟨la2, ha2⟩,
    ⟨lp2, hp2⟩, hn2⟩ := h2
  refine ⟨⟨lu1 ++ lu2, by simp [hu2, hu1]⟩, ⟨lg1 ++ lg2, by simp [hg2, hg1]⟩,
    ⟨li1 ++ li2, by simp [hi2, hi1]⟩,
    ⟨le1 ++ le2, by simp [he2, he1], ?_⟩,
    ⟨la1 ++ la2, by simp [ha2, ha1]⟩, ⟨lp1 ++ lp2, by simp [hp2, hp1]⟩,
    le_trans hn1 hn2⟩
  intro pc hpc
  rcases List.mem_append.mp hpc with hm | hm
  · exact hf1 pc hm
  · exact le_trans hn1 (hf2 pc hm)

/-- Edges decide `Anc`: stores with the same `Directory` table have the
same closure. -/
theorem anc_congr {s t : Store} (h : t.dirEdges = s.dirEdges) (x a : Nat) :
    Anc t x a ↔ Anc s x a := by
  constructor
  · exact Relation.TransGen.mono fun p q hpq => by
      simpa [edgeUp, h] using hpq
  · exact Relation.TransGen.mono fun p q hpq => by
      simpa [edgeUp, h] using hpq

/-- Anything with an ancestor is a child edge's child, hence below the id
counter. -/
theorem anc_child_bound {s : Store} (hE : EdgesOk s) {x a : Nat}
    (h : Anc s x a) : x < s.nextInodeId := by
  rcases (Relation.TransGen.head'_iff).mp h with ⟨b, hb, _⟩
  exact (hE.2 b x hb).2.2

/-- The synthetic root has no ancestors in a well-formed store. -/
theorem anc_root_empty {s : Store} (hE : EdgesOk s) (a : Nat) :
    ¬ Anc s rootInodeId a := by
  intro h
  rcases (Relation.TransGen.head'_iff).mp h with ⟨b, hb, _⟩
  have := hE.2 b rootInodeId hb
  simp [rootInodeId] at this
  omega

/-- Frame rule: growing a store by edges whose children are fresh does not
change the ancestor set of any previously allocated inode. -/
theorem anc_frame {s t : Store} (hg : Grows s t) (hE : EdgesOk s) {x : Nat}
    (hx : x < s.nextInodeId) (a : Nat) : Anc t x a ↔ Anc s x a := by
  obtain ⟨le, he, hfresh⟩ := hg.dirEdges
  constructor
  · intro h
    refine Relation.TransGen.head_induction_on
      (P := fun y _ => y < s.nextInodeId → Anc s y a) h ?_ ?_ hx
    · intro y hy hylt
      have hy' : (a, y) ∈ t.dirEdges := hy
      rw [he] at hy'
      have hmem : (a, y) ∈ s.dirEdges := by
        rcases List.mem_append.mp hy' with hm | hm
        · exact hm
        · exact absurd (hfresh _ hm) (by omega)
      exact Relation.TransGen.single hmem
    · intro y c hyc hca ih hylt
      have hyc' : (c, y) ∈ t.dirEdges := hyc
      rw [he] at hyc'
      have hmem : (c, y) ∈ s.dirEdges := by
        rcases List.mem_append.mp hyc' with hm | hm
        · exact hm
        · exact absurd (hfresh _ hm) (by omega)
      have hclt : c < y := (hE.2 c y hmem).2.1
      exact Relation.TransGen.head hmem (ih (by omega))
  · exact Relation.TransGen.mono fun p q hpq => by
      simp only [edgeUp, he]
      exact List.mem_append.mpr (Or.inl hpq)

/-- Characterization of the ancestors of a freshly linked node: after
appending the single edge `(v, c)` with `c` fresh, the ancestors of `c` are
`v` and the ancestors of `v`. -/
theorem anc_new_node {s t : Store} (hE : EdgesOk s) {v c : Nat}
    (he : t.dirEdges = s.dirEdges ++ [(v, c)])
    (hc : s.nextInodeId ≤ c) (a : Nat) :
    Anc t c a ↔ (a = v ∨ Anc t v a) := by
  constructor
  · intro h
    rcases (Relation.TransGen.head'_iff).mp h with ⟨b, hb, hba⟩
    have hb' : (b, c) ∈ t.dirEdges := hb
    rw [he] at hb'
    have hbv : b = v := by
      rcases List.mem_append.mp hb' with hm | hm
      · exact absurd (hE.2 b c hm).2.2 (by omega)
      · simpa using hm
    subst hbv
    rcases Relation.reflTransGen_iff_eq_or_transGen.mp hba with hba | hba
    · exact Or.inl hba
    · exact Or.inr hba
  · rintro (rfl | h)
    · exact Relation.TransGen.single (by simp [edgeUp, he])
    · exact Relation.TransGen.head (by simp [edgeUp, he]) h

/-! ## Write-shape lemmas for the store operations -/

theorem get_or_create_user_shape {ru : Nat → Option String} {s s1 : Store}
    {uid : Nat} {r : Except IndexErr Nat}
    (h : get_or_create_user ru s uid = (s1, r)) :
    (∃ l, s1.users = s.users ++ l) ∧ s1.groups = s.groups ∧
    s1.inodes = s.inodes ∧ s1.dirEdges = s.dirEdges ∧
    s1.ancPairs = s.ancPairs ∧ s1.fullPaths = s.fullPaths ∧
    s1.nextInodeId = s.nextInodeId ∧ s1.groupCache = s.groupCache := by
  unfold get_or_create_user at h
  split at h
  · cases h; exact ⟨⟨[], by simp⟩, rfl, rfl, rfl, rfl, rfl, rfl, rfl⟩
  · split at h
    · cases h; exact ⟨⟨[], by simp⟩, rfl, rfl, rfl, rfl, rfl, rfl, rfl⟩
    · split at h
      · cases h; exact ⟨⟨[], by simp⟩, rfl, rfl, rfl, rfl, rfl, rfl, rfl⟩
      · cases h; exact ⟨⟨_, rfl⟩, rfl, rfl, rfl, rfl, rfl, rfl, rfl⟩

theorem get_or_create_group_shape {rg : Nat → Option String} {s s1 : Store}
    {gid : Nat} {r : Except IndexErr Nat}
    (h : get_or_create_group rg s gid = (s1, r)) :
    s1.users = s.users ∧ (∃ l, s1.groups = s.groups ++ l) ∧
    s1.inodes = s.inodes ∧ s1.dirEdges = s.dirEdges ∧
    s1.ancPairs = s.ancPairs ∧ s1.fullPaths = s.fullPaths ∧
    s1.nextInodeId = s.nextInodeId ∧ s1.userCache = s.userCache := by
  unfold get_or_create_group at h
  split at h
  · cases h; exact ⟨rfl, ⟨[], by simp⟩, rfl, rfl, rfl, rfl, rfl, rfl⟩
  · split at h
    · cases h; exact ⟨rfl, ⟨[], by simp⟩, rfl, rfl, rfl, rfl, rfl, rfl⟩
    · split at h
      · cases h; exact ⟨rfl, ⟨[], by simp⟩, rfl, rfl, rfl, rfl, rfl, rfl⟩
      · cases h; exact ⟨rfl, ⟨_, rfl⟩, rfl, rfl, rfl, rfl, rfl, rfl⟩

theorem create_inode_ok_shape {ru rg : Nat → Option String} {s s1 : Store}
    {nm ap : String} {st? : Option FileStat} {ty : Nat} {fp : String}
    {iid : Nat}
    (h : create_inode ru rg s nm ap st? ty fp = (s1, .ok iid)) :
    iid = s.nextInodeId ∧ s1.nextInodeId = s.nextInodeId + 1 ∧
    s1.dirEdges = s.dirEdges ∧ s1.ancPairs = s.ancPairs ∧
    (∃ l, s1.users = s.users ++ l) ∧ (∃ l, s1.groups = s.groups ++ l) ∧
    (∃ row : InodeRec, row.id = iid ∧ row.node_type = ty ∧
      row.name = nm ∧ s1.inodes = s.inodes ++ [row]) ∧
    s1.fullPaths = s.fullPaths ++ [(iid, if fp ≠ "" then fp else ap)] := by
  unfold create_inode at h
  cases st? with
  | none => simp at h
  | some st =>
    dsimp only at h
    rcases hu : get_or_create_user ru s st.uid with ⟨su, ruRes⟩
    rw [hu] at h
    cases ruRes with
    | error e => simp at h
    | ok owner =>
      dsimp only at h
      rcases hg : get_or_create_group rg su st.gid with ⟨sg, rgRes⟩
      rw [hg] at h
      cases rgRes with
      | error e => simp at h
      | ok grp =>
        dsimp only at h
        obtain ⟨⟨lu, hlu⟩, hugr, hui, hue, hua, huf, hun, _⟩ :=
          get_or_create_user_shape hu
        obtain ⟨hgu, ⟨lg, hlg⟩, hgi, hge, hga, hgf, hgn, _⟩ :=
          get_or_create_group_shape hg
        cases h
        refine ⟨by rw [hgn, hun], by simp [hgn, hun], by rw [hge, hue],
          by rw [hga, hua], ⟨lu, by rw [hgu, hlu]⟩,
          ⟨lg, by rw [hlg, hugr]⟩, ?_, ?_⟩
        · refine ⟨({ id := sg.nextInodeId, node_type := ty, name := nm,
                     size := st.size, created_time := st.ctime,
                     modified_time := st.mtime, owner := owner,
                     group := grp,
                     owner_permission := parse_owner_permission st.mode,
                     group_permission := parse_group_permission st.mode } :
                    InodeRec),
            by rw [hgn, hun], rfl, rfl, ?_⟩
          dsimp only
          rw [hgi, hui]
        · dsimp only
          rw [hgf, huf]

theorem create_inode_err_shape {ru rg : Nat → Option String} {s s1 : Store}
    {nm ap : String} {st? : Option FileStat} {ty : Nat} {fp : String}
    {e : IndexErr}
    (h : create_inode ru rg s nm ap st? ty fp = (s1, .error e)) :
    s1.dirEdges = s.dirEdges ∧ s1.ancPairs = s.ancPairs ∧
    s1.inodes = s.inodes ∧ s1.fullPaths = s.fullPaths ∧
    s1.nextInodeId = s.nextInodeId ∧
    (∃ l, s1.users = s.users ++ l) ∧ (∃ l, s1.groups = s.groups ++ l) := by
  unfold create_inode at h
  cases st? with
  | none =>
    cases h
    exact ⟨rfl, rfl, rfl, rfl, rfl, ⟨[], by simp⟩, ⟨[], by simp⟩⟩
  | some st =>
    dsimp only at h
    rcases hu : get_or_create_user ru s st.uid with ⟨su, ruRes⟩
    rw [hu] at h
    obtain ⟨⟨lu, hlu⟩, hugr, hui, hue, hua, huf, hun, _⟩ :=
      get_or_create_user_shape hu
    cases ruRes with
    | error e' =>
      cases h
      exact ⟨hue, hua, hui, huf, hun, ⟨lu, hlu⟩, ⟨[], by simp [hugr]⟩⟩
    | ok owner =>
      dsimp only at h
      rcases hg : get_or_create_group rg su st.gid with ⟨sg, rgRes⟩
      rw [hg] at h
      obtain ⟨hgu, ⟨lg, hlg⟩, hgi, hge, hga, hgf, hgn, _⟩ :=
        get_or_create_group_shape hg
      cases rgRes with
      | error e' =>
        cases h
        exact ⟨by rw [hge, hue], by rw [hga, hua], by rw [hgi, hui],
          by rw [hgf, huf], by rw [hgn, hun], ⟨lu, by rw [hgu, hlu]⟩,
          ⟨lg, by rw [hlg, hugr]⟩⟩
      | ok grp => simp at h

/-! ## The closure invariant through one created-and-linked entry -/

theorem entry_step_closure {ru rg : Nat → Option String} {s s1 : Store}
    {nm ap : String} {st? : Option FileStat} {ty : Nat} {fp : String}
    {iid : Nat}
    (hcr : create_inode ru rg s nm ap st? ty fp = (s1, .ok iid))
    (v : Nat) (A : List Nat)
    (hE : EdgesOk s) (hC : ClosureOk s)
    (hA : ∀ a, (a ∈ A ∨ a = rootInodeId) ↔ (a = v ∨ Anc s v a))
    (h1 : rootInodeId ∉ A) (hv1 : 1 ≤ v) (hv : v < s.nextInodeId) :
    EdgesOk (link_ancestors (link_parent s1 v iid) A iid) ∧
    ClosureOk (link_ancestors (link_parent s1 v iid) A iid) ∧
    Grows s (link_ancestors (link_parent s1 v iid) A iid) ∧
    iid = s.nextInodeId ∧
    (link_ancestors (link_parent s1 v iid) A iid).nextInodeId =
      s.nextInodeId + 1 ∧
    (∀ a, Anc (link_ancestors (link_parent s1 v iid) A iid) iid a ↔
      (a ∈ A ∨ a = rootInodeId)) ∧
    (∀ x a, x < s.nextInodeId →
      (Anc (link_ancestors (link_parent s1 v iid) A iid) x a ↔
        Anc s x a)) := by
  obtain ⟨hiid, hn1, he1, ha1, ⟨lu, hlu⟩, ⟨lg, hlg⟩, ⟨row, hrow⟩, hfp1⟩ :=
    create_inode_ok_shape hcr
  set s3 := link_ancestors (link_parent s1 v iid) A iid with hs3
  have he3 : s3.dirEdges = s.dirEdges ++ [(v, iid)] := by
    simp [hs3, link_ancestors, link_parent, he1]
  have ha3 : s3.ancPairs = s.ancPairs ++ A.map (fun a => (a, iid)) := by
    simp [hs3, link_ancestors, link_parent, ha1]
  have hn3 : s3.nextInodeId = s.nextInodeId + 1 := by
    simp [hs3, link_ancestors, link_parent, hn1]
  have hg : Grows s s3 := by
    refine ⟨⟨lu, by simpa [hs3, link_ancestors, link_parent] using hlu⟩,
      ⟨lg, by simpa [hs3, link_ancestors, link_parent] using hlg⟩,
      ⟨[row], by simpa [hs3, link_ancestors, link_parent] using hrow.2.2.2⟩,
      ⟨[(v, iid)], he3, by simp [hiid]⟩,
      ⟨A.map (fun a => (a, iid)), ha3⟩,
      ⟨[(iid, if fp ≠ "" then fp else ap)],
        by simpa [hs3, link_ancestors, link_parent] using hfp1⟩,
      by omega⟩
  have hEok : EdgesOk s3 := by
    refine ⟨by omega, ?_⟩
    intro p c hpc
    rw [he3] at hpc
    rcases List.mem_append.mp hpc with hm | hm
    · have := hE.2 p c hm
      omega
    · simp at hm
      omega
  have hframe : ∀ x a, x < s.nextInodeId → (Anc s3 x a ↔ Anc s x a) :=
    fun x a hx => anc_frame hg hE hx a
  have hnew : ∀ a, Anc s3 iid a ↔ (a = v ∨ Anc s3 v a) :=
    fun a => anc_new_node hE he3 (by omega) a
  have hchain : ∀ a, Anc s3 iid a ↔ (a ∈ A ∨ a = rootInodeId) := by
    intro a
    rw [hnew a]
    constructor
    · rintro (h | h)
      · exact (hA a).mpr (Or.inl h)
      · exact (hA a).mpr (Or.inr ((hframe v a hv).mp h))
    · intro h
      rcases (hA a).mp h with h' | h'
      · exact Or.inl h'
      · exact Or.inr ((hframe v a hv).mpr h')
  refine ⟨hEok, ?_, hg, hiid, hn3, hchain, hframe⟩
  intro a x
  rw [ha3]
  by_cases hx : x = iid
  · constructor
    · intro hmem
      rcases List.mem_append.mp hmem with hm | hm
      · have h' := (hC a x).mp hm
        have := anc_child_bound hE h'.1
        omega
      · simp only [List.mem_map, Prod.mk.injEq] at hm
        obtain ⟨b, hbA, hba, hix⟩ := hm
        subst hba
        exact ⟨hx ▸ ((hchain b).mpr (Or.inl hbA)), fun heq => h1 (heq ▸ hbA)⟩
    · rintro ⟨hanc, hne⟩
      have hanc' : Anc s3 iid a := hx ▸ hanc
      rcases (hchain a).mp hanc' with hm | hm
      · refine List.mem_append.mpr (Or.inr ?_)
        simp only [List.mem_map, Prod.mk.injEq]
        exact ⟨a, hm, rfl, hx.symm⟩
      · exact absurd hm hne
  · by_cases hxlt : x < s.nextInodeId
    · constructor
      · intro hmem
        rcases List.mem_append.mp hmem with hm | hm
        · have h' := (hC a x).mp hm
          exact ⟨(hframe x a hxlt).mpr h'.1, h'.2⟩
        · simp only [List.mem_map, Prod.mk.injEq] at hm
          obtain ⟨b, hbA, hba, hix⟩ := hm
          exact absurd hix.symm hx
      · rintro ⟨hanc, hne⟩
        have := (hC a x).mpr ⟨(hframe x a hxlt).mp hanc, hne⟩
        exact List.mem_append.mpr (Or.inl this)
    · constructor
      · intro hmem
        rcases List.mem_append.mp hmem with hm | hm
        · have h' := (hC a x).mp hm
          have := anc_child_bound hE h'.1
          omega
        · simp only [List.mem_map, Prod.mk.injEq] at hm
          obtain ⟨b, hbA, hba, hix⟩ := hm
          exact absurd hix.symm hx
      · rintro ⟨hanc, _⟩
        rcases (Relation.TransGen.head'_iff).mp hanc with ⟨b, hb, _⟩
        have hb' : (b, x) ∈ s3.dirEdges := hb
        rw [he3] at hb'
        rcases List.mem_append.mp hb' with hm | hm
        · have := hE.2 b x hm
          omega
        · simp only [List.mem_singleton, Prod.mk.injEq] at hm
          exact absurd hm.2 hx

theorem ItemInv_frame {s t : Store} (hg : Grows s t) (hE : EdgesOk s)
    {it : StackItem} (h : ItemInv s it) : ItemInv t it :=
  ⟨fun a => (anc_frame hg hE h.2.2.2 a).trans (h.1 a), h.2.1, h.2.2.1,
    lt_of_lt_of_le h.2.2.2 hg.nextId⟩

theorem processEntries_closure :
    ∀ (es : List FsEntry) (ru rg : Nat → Option String) (s : Store)
      (ap vp : String) (v : Nat) (A : List Nat) (s' : Store)
      (res : Except IndexErr (List StackItem)),
      processEntries ru rg s ap vp v A es = (s', res) →
      EdgesOk s → ClosureOk s →
      (∀ a, (a ∈ A ∨ a = rootInodeId) ↔ (a = v ∨ Anc s v a)) →
      rootInodeId ∉ A → 1 ≤ v → v < s.nextInodeId →
      EdgesOk s' ∧ ClosureOk s' ∧ Grows s s' ∧
      (∀ ps, res = .ok ps → ∀ it ∈ ps, ItemInv s' it) := by
  intro es
  induction es with
  | nil =>
    intro ru rg s ap vp v A s' res h hE hC hA h1 hv1 hv
    simp only [processEntries, Prod.mk.injEq] at h
    obtain ⟨rfl, rfl⟩ := h
    refine ⟨hE, hC, Grows.refl s, ?_⟩
    intro ps hps it hit
    cases hps
    simp at hit
  | cons e rest ih =>
    intro ru rg s ap vp v A s' res h hE hC hA h1 hv1 hv
    simp only [processEntries] at h
    by_cases hc : classifyEntry e ≠ 0
    · rw [if_pos hc] at h
      rcases hci : create_inode ru rg s e.name (joinPath ap e.name) e.st
          (classifyEntry e) (joinPath vp e.name) with ⟨s1, cres⟩
      rw [hci] at h
      cases cres with
      | error err =>
        dsimp only at h
        injection h with h1 h2
        subst h1
        subst h2
        obtain ⟨hde, hpa, hin, hfpx, hnx, ⟨lu, hlu⟩, ⟨lg, hlg⟩⟩ :=
          create_inode_err_shape hci
        refine ⟨?_, ?_, ?_, ?_⟩
        · refine ⟨by have := hE.1; omega, ?_⟩
          intro p c hpc
          rw [hnx]
          exact hE.2 p c (hde ▸ hpc)
        · intro a x
          rw [hpa]
          exact (hC a x).trans
            (and_congr_left fun _ => (anc_congr hde x a).symm)
        · exact ⟨⟨lu, hlu⟩, ⟨lg, hlg⟩, ⟨[], by simp [hin]⟩,
            ⟨[], by simp [hde]⟩, ⟨[], by simp [hpa]⟩,
            ⟨[], by simp [hfpx]⟩, by omega⟩
        · intro ps hps
          cases hps
      | ok iid =>
        dsimp only at h
        obtain ⟨hEok3, hC3, hg3, hiid, hn3, hchain3, hframe3⟩ :=
          entry_step_closure hci v A hE hC hA h1 hv1 hv
        rcases hrest : processEntries ru rg
            (link_ancestors (link_parent s1 v iid) A iid) ap vp v A rest
          with ⟨s4, res4⟩
        rw [hrest] at h
        have hA4 : ∀ a, (a ∈ A ∨ a = rootInodeId) ↔
            (a = v ∨ Anc (link_ancestors (link_parent s1 v iid) A iid)
              v a) := by
          intro a
          rw [hA a]
          exact or_congr_right (hframe3 v a hv).symm
        have hrec := ih ru rg _ ap vp v A s4 res4 hrest hEok3 hC3 hA4 h1
          hv1 (by omega)
        cases res4 with
        | error err =>
          dsimp only at h
          injection h with h1 h2
          subst h1
          subst h2
          refine ⟨hrec.1, hrec.2.1, Grows.trans hg3 hrec.2.2.1, ?_⟩
          intro ps hps
          cases hps
        | ok ps4 =>
          dsimp only at h
          injection h with h1 h2
          subst h1
          subst h2
          refine ⟨hrec.1, hrec.2.1, Grows.trans hg3 hrec.2.2.1, ?_⟩
          intro ps hps it hit
          cases hps
          rcases List.mem_append.mp hit with hm | hm
          · by_cases hdir : classifyEntry e = DIRECTORY
            · rw [if_pos hdir] at hm
              simp at hm
              subst hm
              refine ItemInv_frame hrec.2.2.1 hEok3 ?_
              refine ⟨hchain3, h1, ?_, ?_⟩
              · simp only [rootInodeId]
                omega
              · simp only
                omega
            · rw [if_neg hdir] at hm
              simp at hm
          · exact hrec.2.2.2 ps4 rfl it hm
    · rw [if_neg hc] at h
      exact ih ru rg s ap vp v A s' res h hE hC hA h1 hv1 hv

theorem indexLoopF_closure :
    ∀ (n : Nat) (stack : List StackItem) (ru rg : Nat → Option String)
      (s : Store), stackMeasure stack ≤ n →
      EdgesOk s → ClosureOk s → (∀ it ∈ stack, ItemInv s it) →
      EdgesOk (indexLoopF ru rg n s stack).1 ∧
      ClosureOk (indexLoopF ru rg n s stack).1 ∧
      Grows s (indexLoopF ru rg n s stack).1 := by
  intro n
  induction n with
  | zero =>
    intro stack ru rg s hm hE hC hs
    cases stack with
    | nil => exact ⟨hE, hC, Grows.refl s⟩
    | cons item rest =>
      exfalso
      simp [stackMeasure, itemMeasure] at hm
  | succ n ih =>
    intro stack ru rg s hm hE hC hs
    cases stack with
    | nil => exact ⟨hE, hC, Grows.refl s⟩
    | cons item rest =>
      simp only [indexLoopF]
      by_cases hd : item.denied
      · simp only [hd, if_true]
        refine ih rest ru rg s ?_ hE hC ?_
        · simp only [stackMeasure, itemMeasure] at hm
          omega
        · intro it hit
          exact hs it (List.mem_cons_of_mem _ hit)
      · simp only [hd, if_false, Bool.false_eq_true]
        split
        next s1 e hpe =>
          have hitem := hs item (List.mem_cons_self _ _)
          have hA : ∀ a, (a ∈ item.ancestors ++ [item.inodeId] ∨
              a = rootInodeId) ↔ (a = item.inodeId ∨ Anc s item.inodeId a)
            := by
            intro a
            rw [hitem.1 a]
            simp only [List.mem_append, List.mem_singleton]
            tauto
          have h1 : rootInodeId ∉ item.ancestors ++ [item.inodeId] := by
            simp only [List.mem_append, List.mem_singleton]
            rintro (hm' | hm')
            · exact hitem.2.1 hm'
            · exact absurd hm'.symm (by have := hitem.2.2.1; omega)
          have hpc := processEntries_closure item.children ru rg s
            item.apath item.vdir item.inodeId
            (item.ancestors ++ [item.inodeId]) s1 (.error e) hpe hE hC hA
            h1 (by have := hitem.2.2.1; simp [rootInodeId] at this; omega)
            hitem.2.2.2
          exact ⟨hpc.1, hpc.2.1, hpc.2.2.1⟩
        next s1 pushed hpe =>
          have hitem := hs item (List.mem_cons_self _ _)
          have hA : ∀ a, (a ∈ item.ancestors ++ [item.inodeId] ∨
              a = rootInodeId) ↔ (a = item.inodeId ∨ Anc s item.inodeId a)
            := by
            intro a
            rw [hitem.1 a]
            simp only [List.mem_append, List.mem_singleton]
            tauto
          have h1 : rootInodeId ∉ item.ancestors ++ [item.inodeId] := by
            simp only [List.mem_append, List.mem_singleton]
            rintro (hm' | hm')
            · exact hitem.2.1 hm'
            · exact absurd hm'.symm (by have := hitem.2.2.1; omega)
          have hpc := processEntries_closure item.children ru rg s
            item.apath item.vdir item.inodeId
            (item.ancestors ++ [item.inodeId]) s1 (.ok pushed) hpe hE hC hA
            h1 (by have := hitem.2.2.1; simp [rootInodeId] at this; omega)
            hitem.2.2.2
          have hmeas : stackMeasure (pushed.reverse ++ rest) ≤ n := by
            have hple := processEntries_measure item.children ru rg s
              item.apath item.vdir item.inodeId
              (item.ancestors ++ [item.inodeId]) s1 pushed hpe
            simp only [stackMeasure_append, stackMeasure_reverse]
            simp only [stackMeasure, itemMeasure] at hm
            omega
          have hstack : ∀ it ∈ pushed.reverse ++ rest, ItemInv s1 it := by
            intro it hit
            rcases List.mem_append.mp hit with hm' | hm'
            · exact hpc.2.2.2 pushed rfl it (List.mem_reverse.mp hm')
            · exact ItemInv_frame hpc.2.2.1 hE (hs it
                (List.mem_cons_of_mem _ hm'))
          have hrec := ih (pushed.reverse ++ rest) ru rg s1 hmeas hpc.1
            hpc.2.1 hstack
          exact ⟨hrec.1, hrec.2.1, Grows.trans hpc.2.2.1 hrec.2.2⟩

theorem indexLoop_closure (ru rg : Nat → Option String) (s : Store)
    (stack : List StackItem) (hE : EdgesOk s) (hC : ClosureOk s)
    (hs : ∀ it ∈ stack, ItemInv s it) :
    EdgesOk (indexLoop ru rg s stack).1 ∧
    ClosureOk (indexLoop ru rg s stack).1 ∧
    Grows s (indexLoop ru rg s stack).1 :=
  indexLoopF_closure (stackMeasure stack) stack ru rg s (le_refl _) hE hC hs

theorem link_ancestors_nil (s : Store) (i : Nat) :
    link_ancestors s [] i = s := by
  simp [link_ancestors]

theorem index_preserves_closure (ru rg : Nat → Option String) (s : Store)
    (r : RootDir) (hE : EdgesOk s) (hC : ClosureOk s) :
    EdgesOk (index ru rg s r).1 ∧ ClosureOk (index ru rg s r).1 := by
  unfold index
  split
  · exact ⟨hE, hC⟩
  · split
    · exact ⟨hE, hC⟩
    · dsimp only
      split
      next s' e hcr =>
        obtain ⟨hde, hpa, hin, hfpx, hnx, ⟨lu, hlu⟩, ⟨lg, hlg⟩⟩ :=
          create_inode_err_shape hcr
        dsimp only
        refine ⟨⟨by have := hE.1; omega, ?_⟩, ?_⟩
        · intro p c hpc
          rw [hnx]
          exact hE.2 p c (hde ▸ hpc)
        · intro a x
          rw [hpa]
          exact (hC a x).trans
            (and_congr_left fun _ => (anc_congr hde x a).symm)
      next s1 rid hcr =>
        have hA : ∀ a, (a ∈ ([] : List Nat) ∨ a = rootInodeId) ↔
            (a = rootInodeId ∨ Anc s rootInodeId a) := by
          intro a
          constructor
          · rintro (h | h)
            · simp at h
            · exact Or.inl h
          · rintro (h | h)
            · exact Or.inr h
            · exact absurd h (anc_root_empty hE a)
        have hstep := entry_step_closure hcr rootInodeId [] hE hC hA
          (by simp) (le_refl 1) (by have := hE.1; simp [rootInodeId]; omega)
        rw [link_ancestors_nil] at hstep
        obtain ⟨hE2, hC2, hg2, hiid, hn2, hchain2, hframe2⟩ := hstep
        have hitem : ItemInv (link_parent s1 rootInodeId rid)
            ⟨r.apath, "/" ++ basename r.apath, rid, [], r.denied,
              r.children⟩ := by
          refine ⟨hchain2, by simp, ?_, ?_⟩
          · dsimp only
            have := hE.1
            simp only [rootInodeId]
            omega
          · dsimp only
            rw [hn2]
            omega
        split
        next sf hloop =>
          have hres := indexLoop_closure ru rg
            (link_parent s1 rootInodeId rid)
            [⟨r.apath, "/" ++ basename r.apath, rid, [], r.denied,
              r.children⟩] hE2 hC2
            (by intro it hit; simp at hit; subst hit; exact hitem)
          rw [hloop] at hres
          exact ⟨hres.1, hres.2.1⟩
        next sf e hloop =>
          exact ⟨hE2, hC2⟩

theorem indexReach_closure {ru rg : Nat → Option String} {s : Store}
    (h : IndexReach ru rg s) : EdgesOk s ∧ ClosureOk s := by
  induction h with
  | init =>
    constructor
    · exact ⟨by simp [initStore], by simp [initStore]⟩
    · intro a x
      simp only [initStore]
      constructor
      · intro hm
        simp at hm
      · rintro ⟨hanc, _⟩
        rcases (Relation.TransGen.head'_iff).mp hanc with ⟨b, hb, _⟩
        simp [edgeUp, initStore] at hb
  | step s r hs ih =>
    exact index_preserves_closure ru rg s r ih.1 ih.2

/-! ## Claim C1 -/

/-- C1, as stated, is false on the code: in `exStore` the `Directory` edge
`(1, 2)` (synthetic root over the subtree root) has no `Ancestor` pair,
although the synthetic root is reachable from inode 2 by one parent step —
`FileSystem.index` seeds the traversal with an empty ancestor chain and
never links ancestors for the subtree root, so the synthetic root (and the
subtree root itself) never appear as ancestors. -/
theorem closure_misses_root_counterexample :
    (rootInodeId, 2) ∈ exStore.dirEdges ∧
    Anc exStore 2 rootInodeId ∧
    (rootInodeId, 2) ∉ exStore.ancPairs := by
  refine ⟨by decide, Relation.TransGen.single ?_, by decide⟩
  show (rootInodeId, 2) ∈ exStore.dirEdges
  decide

/-- C1 (amended): in every store built by a sequence of `index` invocations
on a fresh database, the `Ancestor` relation holds the pair `(a, x)`
exactly when `a` is reachable from `x` by repeatedly following the
`Directory` parent edge *and `a` is not the synthetic root*; consequently
every `Directory` edge `(p, c)` whose parent is not the synthetic root has
a corresponding `Ancestor` pair, while the edges out of the synthetic root
do not. -/
theorem ancestor_closure_amended (ru rg : Nat → Option String) (s : Store)
    (h : IndexReach ru rg s) :
    (∀ a x, (a, x) ∈ s.ancPairs ↔ (Anc s x a ∧ a ≠ rootInodeId)) ∧
    (∀ p c, (p, c) ∈ s.dirEdges → p ≠ rootInodeId →
      (p, c) ∈ s.ancPairs) := by
  obtain ⟨hE, hC⟩ := indexReach_closure h
  refine ⟨hC, ?_⟩
  intro p c hpc hp
  exact (hC p c).mpr ⟨Relation.TransGen.single hpc, hp⟩

/-- Witness for C1's amended theorem at the concrete store `exStore`. -/
theorem ancestor_closure_amended_witness :
    (∀ a x, (a, x) ∈ exStore.ancPairs ↔
      (Anc exStore x a ∧ a ≠ rootInodeId)) ∧
    (∀ p c, (p, c) ∈ exStore.dirEdges → p ≠ rootInodeId →
      (p, c) ∈ exStore.ancPairs) :=
  ancestor_closure_amended ru0 rg0 exStore
    (IndexReach.step initStore exTree IndexReach.init)

/-! ## Claim C2 -/

/-- C2, as stated, is false on the code: a fatal `os.stat` failure while
traversing `/tmp/bad` raises out of `index`, yet afterwards the store still
holds records created by that same invocation — the subtree root inode, its
link `(1, 2)` under the synthetic root, and its `FullPath` `/bad` — because
`create_inode`/`link_parent` for the subtree root run *before* the
`db.atomic()` block.  Only the loop's writes were rolled back (no trace of
`ok1` remains). -/
theorem index_partial_commit_counterexample :
    (index ru0 rg0 initStore badTree).2 = some IndexErr.pathNotFound ∧
    (rootInodeId, 2) ∈ (index ru0 rg0 initStore badTree).1.dirEdges ∧
    (2, "/bad") ∈ (index ru0 rg0 initStore badTree).1.fullPaths ∧
    ((index ru0 rg0 initStore badTree).1.inodes.all
      (fun i => i.name != "ok1")) = true ∧
    (index ru0 rg0 initStore badTree).1 ≠ initStore := by
  decide

/-- C2 (amended): only the traversal loop of one `index(rootPath)`
invocation runs inside the atomic transaction.  When the loop raises a
fatal error, the store afterwards is exactly the pre-transaction state —
the subtree root inode, its identity rows, its `FullPath` entry and its
link under the synthetic root persist, while none of the loop's inodes,
edges, ancestor pairs or paths survive (table-wise the result equals the
state right after the root link). -/
theorem index_transaction_boundary (ru rg : Nat → Option String)
    (s : Store) (r : RootDir) (s1 sf : Store) (rid : Nat) (e : IndexErr)
    (hdir : r.isDirPath = true)
    (hdup : existsIndexFor s r.apath = false)
    (hcr : create_inode ru rg s (basename r.apath) r.apath r.st DIRECTORY
      ("/" ++ basename r.apath) = (s1, .ok rid))
    (hloop : indexLoop ru rg (link_parent s1 rootInodeId rid)
      [⟨r.apath, "/" ++ basename r.apath, rid, [], r.denied, r.children⟩] =
      (sf, some e)) :
    index ru rg s r =
      (rollbackTo (link_parent s1 rootInodeId rid) sf, some e) ∧
    (index ru rg s r).1.inodes = s1.inodes ∧
    (index ru rg s r).1.dirEdges = s.dirEdges ++ [(rootInodeId, rid)] ∧
    (index ru rg s r).1.ancPairs = s.ancPairs ∧
    (index ru rg s r).1.fullPaths =
      s.fullPaths ++ [(rid, "/" ++ basename r.apath)] := by
  obtain ⟨hiid, hn1, he1, ha1, ⟨lu, hlu⟩, ⟨lg, hlg⟩, ⟨row, hrow⟩, hfp1⟩ :=
    create_inode_ok_shape hcr
  have hne : ("/" ++ basename r.apath) ≠ "" := by
    intro h
    have h2 := congrArg String.length h
    rw [String.length_append] at h2
    have e1 : "/".length = 1 := rfl
    have e2 : "".length = 0 := rfl
    omega
  have hidx : index ru rg s r =
      (rollbackTo (link_parent s1 rootInodeId rid) sf, some e) := by
    unfold index
    rw [if_neg (by simp [hdir]), if_neg (by simp [hdup])]
    dsimp only
    rw [hcr]
    dsimp only
    rw [hloop]
  refine ⟨hidx, ?_, ?_, ?_, ?_⟩ <;> rw [hidx]
  · rfl
  · show (link_parent s1 rootInodeId rid).dirEdges =
      s.dirEdges ++ [(rootInodeId, rid)]
    simp [link_parent, he1]
  · exact ha1
  · show s1.fullPaths = s.fullPaths ++ [(rid, "/" ++ basename r.apath)]
    rw [hfp1, if_pos hne]

/-- Witness for C2's amended theorem on the concrete failing run over
`/tmp/bad`. -/
theorem index_transaction_boundary_witness :
    index ru0 rg0 initStore badTree =
      (rollbackTo (link_parent badS1 rootInodeId 2) badSf,
        some IndexErr.pathNotFound) ∧
    (index ru0 rg0 initStore badTree).1.inodes = badS1.inodes ∧
    (index ru0 rg0 initStore badTree).1.dirEdges =
      initStore.dirEdges ++ [(rootInodeId, 2)] ∧
    (index ru0 rg0 initStore badTree).1.ancPairs = initStore.ancPairs ∧
    (index ru0 rg0 initStore badTree).1.fullPaths =
      initStore.fullPaths ++ [(2, "/" ++ basename badTree.apath)] :=
  index_transaction_boundary ru0 rg0 initStore badTree badS1 badSf 2
    IndexErr.pathNotFound (by decide) (by decide) rfl rfl

/-! ## Claim C3 -/

/-- C3: the duplicate check of `FileSystem.index` compares the *absolute*
input path against the stored *virtual* full paths of the synthetic root's
children, so re-indexing `/tmp/data` (stored virtual path `/data`) is not
detected: the second call succeeds and silently creates a second subtree
under the synthetic root.  The check fires only in the special case of a
path sitting directly below the filesystem root, such as `/data`, where the
two path forms coincide — there the second call does raise
`DuplicateIndex` and leaves the store untouched. -/
theorem duplicate_index_silently_duplicates :
    (2, "/data") ∈ exStore.fullPaths ∧
    existsIndexFor exStore "/tmp/data" = false ∧
    (index ru0 rg0 exStore exTree).2 = none ∧
    ((index ru0 rg0 exStore exTree).1.dirEdges.filter
      (fun ed => ed.1 == rootInodeId)).length = 2 ∧
    (index ru0 rg0 slashStore slashTree).2 =
      some IndexErr.duplicateIndex ∧
    (index ru0 rg0 slashStore slashTree).1 = slashStore := by
  decide

/-! ## Claim C5 -/

/-- A committed `change_directory` always leaves the cursor on its target
(when the target is a directory): either the no-op guard fired because the
cursor already was there, or the move was taken. -/
theorem change_directory_current (s : Store) (st : ShellState) (tgt : Nat)
    (h : is_dir s tgt = true) :
    ((change_directory s st tgt).2).current = tgt := by
  unfold change_directory
  by_cases hguard : (st.current == tgt && tgt != rootInodeId) = true
  · rw [if_pos hguard]
    have hg := (Bool.and_eq_true _ _).mp hguard
    have hcur : st.current = tgt := by simpa using hg.1
    exact hcur
  · rw [if_neg hguard, if_neg (by simp [h])]

/-- C5: whenever the segment chain of a `cd` path expression fails on a
missing child name, `do_cd` reports the failure (`NoSuchChild`) and the
shell state ends exactly at its pre-command value — cursor rolled back via
`change_directory`, `_last_inode` restored from its saved copy. -/
theorem cd_rollback_noSuchChild (s : Store) (st : ShellState)
    (arg a0 : String) (stf : ShellState)
    (hdir : is_dir s st.current = true)
    (hargs : splitWs arg = [a0])
    (hnd : (splitSlash a0).head? ≠ some "-")
    (hchain : cdChain s st (splitSlash a0) =
      .error (CdErr.noSuchChild, stf)) :
    do_cd s st arg = (st, some DoCdErr.noSuchChild) := by
  have hsw : splitWs "" = [] := rfl
  have harg : arg ≠ "" := by
    intro h
    rw [h, hsw] at hargs
    simp at hargs
  rcases hsp : splitSlash a0 with _ | ⟨p0, restPath⟩
  · rw [hsp] at hchain
    simp [cdChain] at hchain
  · rw [hsp] at hchain hnd
    have hp0 : ¬ p0 = "-" := by
      simp only [List.head?] at hnd
      intro hx
      exact hnd (by rw [hx])
    unfold do_cd
    rw [if_neg harg, hargs]
    dsimp only
    rw [if_neg (show ¬ ([] : List String).length + 1 > 1 by simp), hsp]
    dsimp only
    rw [if_neg hp0]
    rw [hchain]
    dsimp only
    have hc := change_directory_current s stf st.current hdir
    have hfin : ({ (change_directory s stf st.current).2 with
        last := st.last } : ShellState) = st := by
      show (⟨(change_directory s stf st.current).2.current,
        st.last⟩ : ShellState) = st
      rw [hc]
    rw [hfin]

/-- Witness for C5 at the concrete store: `cd data/x/y` from the root
(where `data` exists but `x` does not) fails with `NoSuchChild` and leaves
the state unchanged. -/
theorem cd_rollback_noSuchChild_witness :
    do_cd exStore ⟨1, 1⟩ "data/x/y" = (⟨1, 1⟩, some DoCdErr.noSuchChild) :=
  cd_rollback_noSuchChild exStore ⟨1, 1⟩ "data/x/y" "data/x/y" ⟨2, 1⟩
    (by decide) (by decide) (by decide) rfl

/-! ## Claim C6 -/

/-- C6 is false on the code: `do_cd` saves `_last_inode` on entry and
restores it unconditionally at the end, clobbering the update made by
`change_directory` even when the command succeeds.  Concretely, with the
cursor at `data` (inode 2, previous 1), a successful `cd b` moves to inode
3 but leaves previous at 1, not at 2; the following `cd -` therefore
returns to the root instead of to `data`. -/
theorem cd_previous_not_pre_command_position :
    do_cd exStore ⟨2, 1⟩ "b" = (⟨3, 1⟩, none) ∧
    (do_cd exStore ⟨3, 1⟩ "-").1 = ⟨1, 3⟩ := by
  decide

/-! ## Claim C7 -/

/-- C7 is false on the code: `do_cd` with an empty expression does move the
cursor to the synthetic root, but the branch does not return, so execution
falls through to `args[0]` on the empty `shlex.split` result and raises an
uncaught `IndexError` — the command does not complete normally. -/
theorem cd_empty_moves_to_root_then_raises (s : Store) (st : ShellState) :
    do_cd s st "" =
      ((change_directory s st rootInodeId).2, some DoCdErr.indexError) :=
  rfl

/-! ## Claim C8 -/

theorem countUsers_zero_of_not_exists {s : Store} {uid : Nat}
    (h : s.users.any (fun u => u.1 == uid) = false) :
    countUsers s uid = 0 := by
  unfold countUsers
  have hnil : s.users.filter (fun u => u.1 == uid) = [] := by
    rw [List.filter_eq_nil_iff]
    intro u hu hpu
    have hany : s.users.any (fun u => u.1 == uid) = true :=
      List.any_eq_true.mpr ⟨u, hu, hpu⟩
    rw [h] at hany
    cases hany
  rw [hnil]
  rfl

theorem countGroups_zero_of_not_exists {s : Store} {gid : Nat}
    (h : s.groups.any (fun g => g.1 == gid) = false) :
    countGroups s gid = 0 := by
  unfold countGroups
  have hnil : s.groups.filter (fun g => g.1 == gid) = [] := by
    rw [List.filter_eq_nil_iff]
    intro g hg hpg
    have hany : s.groups.any (fun g => g.1 == gid) = true :=
      List.any_eq_true.mpr ⟨g, hg, hpg⟩
    rw [h] at hany
    cases hany
  rw [hnil]
  rfl

theorem user_step_preserves (ru : Nat → Option String) (s : Store)
    (uid : Nat) (h : UserOk s uid) :
    UserOk (get_or_create_user ru s uid).1 uid := by
  unfold get_or_create_user
  by_cases hcache : uid ∈ s.userCache
  · rw [if_pos hcache]
    exact h
  · rw [if_neg hcache]
    by_cases hex : s.users.any (fun u => u.1 == uid) = true
    · rw [if_pos hex]
      exact ⟨fun _ => hex, h.2⟩
    · rw [if_neg hex]
      have hex' : s.users.any (fun u => u.1 == uid) = false := by
        revert hex
        cases s.users.any (fun u => u.1 == uid) <;> simp
      have hz : countUsers s uid = 0 := countUsers_zero_of_not_exists hex'
      have hnil : s.users.filter (fun u => u.1 == uid) = [] :=
        List.length_eq_zero.mp hz
      cases hru : ru uid with
      | none =>
        exact ⟨fun hc => absurd hc hcache, h.2⟩
      | some nm =>
        dsimp only
        refine ⟨fun _ => ?_, ?_⟩
        · simp
        · show countUsers
            { s with users := s.users ++ [(uid, nm)],
                     userCache := uid :: s.userCache } uid ≤ 1
          unfold countUsers
          simp only [List.filter_append, hnil]
          simp

theorem group_step_preserves (rg : Nat → Option String) (s : Store)
    (gid : Nat) (h : GroupOk s gid) :
    GroupOk (get_or_create_group rg s gid).1 gid := by
  unfold get_or_create_group
  by_cases hcache : gid ∈ s.groupCache
  · rw [if_pos hcache]
    exact h
  · rw [if_neg hcache]
    by_cases hex : s.groups.any (fun g => g.1 == gid) = true
    · rw [if_pos hex]
      exact ⟨fun _ => hex, h.2⟩
    · rw [if_neg hex]
      have hex' : s.groups.any (fun g => g.1 == gid) = false := by
        revert hex
        cases s.groups.any (fun g => g.1 == gid) <;> simp
      have hz : countGroups s gid = 0 := countGroups_zero_of_not_exists hex'
      have hnil : s.groups.filter (fun g => g.1 == gid) = [] :=
        List.length_eq_zero.mp hz
      cases hrg : rg gid with
      | none =>
        exact ⟨fun hc => absurd hc hcache, h.2⟩
      | some nm =>
        dsimp only
        refine ⟨fun _ => ?_, ?_⟩
        · simp
        · show countGroups
            { s with groups := s.groups ++ [(gid, nm)],
                     groupCache := gid :: s.groupCache } gid ≤ 1
          unfold countGroups
          simp only [List.filter_append, hnil]
          simp

theorem iterUser_bound (ru : Nat → Option String) (uid : Nat) :
    ∀ (n : Nat) (s : Store), UserOk s uid →
      countUsers (iterUser ru uid n s) uid ≤ 1 := by
  intro n
  induction n with
  | zero => intro s h; exact h.2
  | succ n ih =>
    intro s h
    exact ih (get_or_create_user ru s uid).1 (user_step_preserves ru s uid h)

theorem iterGroup_bound (rg : Nat → Option String) (gid : Nat) :
    ∀ (n : Nat) (s : Store), GroupOk s gid →
      countGroups (iterGroup rg gid n s) gid ≤ 1 := by
  intro n
  induction n with
  | zero => intro s h; exact h.2
  | succ n ih =>
    intro s h
    exact ih (get_or_create_group rg s gid).1
      (group_step_preserves rg s gid h)

/-- C8: `get_or_create_user` / `get_or_create_group` are idempotent.  In
any registry state that is healthy for the queried id (memo cache backed by
a row, at most one row per id — `UserOk`/`GroupOk`): if a row with the id
exists the call stores nothing new and returns the id; if none exists and
the resolver knows the id, exactly one new row is appended and the id
returned; and any number of repeated calls leaves at most one stored row
for that id. -/
theorem resolve_identity_idempotent (ru rg : Nat → Option String)
    (s : Store) (uid gid : Nat) (n : Nat)
    (hu : UserOk s uid) (hg : GroupOk s gid) :
    (s.users.any (fun u => u.1 == uid) = true →
      (get_or_create_user ru s uid).1.users = s.users ∧
      (get_or_create_user ru s uid).2 = .ok uid) ∧
    (∀ nm, s.users.any (fun u => u.1 == uid) = false →
      ru uid = some nm →
      (get_or_create_user ru s uid).1.users = s.users ++ [(uid, nm)] ∧
      (get_or_create_user ru s uid).2 = .ok uid) ∧
    countUsers (iterUser ru uid n s) uid ≤ 1 ∧
    (s.groups.any (fun g => g.1 == gid) = true →
      (get_or_create_group rg s gid).1.groups = s.groups ∧
      (get_or_create_group rg s gid).2 = .ok gid) ∧
    (∀ nm, s.groups.any (fun g => g.1 == gid) = false →
      rg gid = some nm →
      (get_or_create_group rg s gid).1.groups = s.groups ++ [(gid, nm)] ∧
      (get_or_create_group rg s gid).2 = .ok gid) ∧
    countGroups (iterGroup rg gid n s) gid ≤ 1 := by
  refine ⟨?_, ?_, iterUser_bound ru uid n s hu, ?_, ?_,
    iterGroup_bound rg gid n s hg⟩
  · intro hex
    unfold get_or_create_user
    by_cases hcache : uid ∈ s.userCache
    · rw [if_pos hcache]
      exact ⟨rfl, rfl⟩
    · rw [if_neg hcache, if_pos hex]
      exact ⟨rfl, rfl⟩
  · intro nm hex hru
    unfold get_or_create_user
    by_cases hcache : uid ∈ s.userCache
    · have := hu.1 hcache
      rw [this] at hex
      cases hex
    · rw [if_neg hcache, if_neg (by simp [hex]), hru]
      exact ⟨rfl, rfl⟩
  · intro hex
    unfold get_or_create_group
    by_cases hcache : gid ∈ s.groupCache
    · rw [if_pos hcache]
      exact ⟨rfl, rfl⟩
    · rw [if_neg hcache, if_pos hex]
      exact ⟨rfl, rfl⟩
  · intro nm hex hrg
    unfold get_or_create_group
    by_cases hcache : gid ∈ s.groupCache
    · have := hg.1 hcache
      rw [this] at hex
      cases hex
    · rw [if_neg hcache, if_neg (by simp [hex]), hrg]
      exact ⟨rfl, rfl⟩

/-- Witness for C8 on concrete registries: a fresh store (no rows) and the
populated `exStore` (one row for uid 1000 / gid 100). -/
theorem resolve_identity_idempotent_witness :
    ((initStore.users.any (fun u => u.1 == 1000) = true →
      (get_or_create_user ru0 initStore 1000).1.users = initStore.users ∧
      (get_or_create_user ru0 initStore 1000).2 = .ok 1000) ∧
    (∀ nm, initStore.users.any (fun u => u.1 == 1000) = false →
      ru0 1000 = some nm →
      (get_or_create_user ru0 initStore 1000).1.users =
        initStore.users ++ [(1000, nm)] ∧
      (get_or_create_user ru0 initStore 1000).2 = .ok 1000) ∧
    countUsers (iterUser ru0 1000 5 initStore) 1000 ≤ 1 ∧
    (initStore.groups.any (fun g => g.1 == 100) = true →
      (get_or_create_group rg0 initStore 100).1.groups =
        initStore.groups ∧
      (get_or_create_group rg0 initStore 100).2 = .ok 100) ∧
    (∀ nm, initStore.groups.any (fun g => g.1 == 100) = false →
      rg0 100 = some nm →
      (get_or_create_group rg0 initStore 100).1.groups =
        initStore.groups ++ [(100, nm)] ∧
      (get_or_create_group rg0 initStore 100).2 = .ok 100) ∧
    countGroups (iterGroup rg0 100 5 initStore) 100 ≤ 1) ∧
    countUsers (iterUser ru0 1000 3 exStore) 1000 ≤ 1 :=
  ⟨resolve_identity_idempotent ru0 rg0 initStore 1000 100 5
      ⟨by decide, by decide⟩ ⟨by decide, by decide⟩,
    (resolve_identity_idempotent ru0 rg0 exStore 1000 100 3
      ⟨by decide, by decide⟩ ⟨by decide, by decide⟩).2.2.1⟩

/-! ## Claim C10 -/

/-- C10: `list_inode` on an id with no `Inode` row returns the `None`
sentinel, whatever the `get_self` flag — not an empty collection and not an
error. -/
theorem list_inode_missing_returns_none (s : Store) (iid : Nat) (g : Bool)
    (h : ∀ i ∈ s.inodes, i.id ≠ iid) :
    list_inode s iid g = none := by
  unfold list_inode
  rw [List.filter_eq_nil_iff.mpr]
  · intro i hi
    simpa using h i hi

/-- Witness for C10: id 99 has no row in `exStore`; both flag values give
`none`. -/
theorem list_inode_missing_returns_none_witness :
    list_inode exStore 99 false = none ∧
    list_inode exStore 99 true = none :=
  ⟨list_inode_missing_returns_none exStore 99 false (by decide),
   list_inode_missing_returns_none exStore 99 true (by decide)⟩

/-! ## Claims C4 and C9: traversal machinery -/

theorem processEntries_edges :
    ∀ (es : List FsEntry) (ru rg : Nat → Option String) (s : Store)
      (ap vp : String) (v : Nat) (A : List Nat) (s' : Store)
      (res : Except IndexErr (List StackItem)),
      processEntries ru rg s ap vp v A es = (s', res) →
      (∃ l, s'.dirEdges = s.dirEdges ++ l ∧
        ∀ pc ∈ l, pc.1 = v ∧ s.nextInodeId ≤ pc.2) ∧
      s.nextInodeId ≤ s'.nextInodeId ∧
      (∃ l, s'.fullPaths = s.fullPaths ++ l) ∧
      (∃ l, s'.inodes = s.inodes ++ l) := by
  intro es
  induction es with
  | nil =>
    intro ru rg s ap vp v A s' res h
    simp only [processEntries, Prod.mk.injEq] at h
    obtain ⟨rfl, rfl⟩ := h
    exact ⟨⟨[], by simp, by simp⟩, le_refl _, ⟨[], by simp⟩,
      ⟨[], by simp⟩⟩
  | cons e rest ih =>
    intro ru rg s ap vp v A s' res h
    simp only [processEntries] at h
    by_cases hc : classifyEntry e ≠ 0
    · rw [if_pos hc] at h
      rcases hci : create_inode ru rg s e.name (joinPath ap e.name) e.st
          (classifyEntry e) (joinPath vp e.name) with ⟨s1, cres⟩
      rw [hci] at h
      cases cres with
      | error err =>
        dsimp only at h
        injection h with h1 h2
        subst h1
        subst h2
        obtain ⟨hde, hpa, hin, hfpx, hnx, _, _⟩ := create_inode_err_shape hci
        exact ⟨⟨[], by simp [hde], by simp⟩, by omega,
          ⟨[], by simp [hfpx]⟩, ⟨[], by simp [hin]⟩⟩
      | ok iid =>
        dsimp only at h
        obtain ⟨hiid, hn1, he1, ha1, _, _, ⟨row, hrow⟩, hfp1⟩ :=
          create_inode_ok_shape hci
        rcases hrest : processEntries ru rg
            (link_ancestors (link_parent s1 v iid) A iid) ap vp v A rest
          with ⟨s4, res4⟩
        rw [hrest] at h
        obtain ⟨⟨l4, hl4, hl4f⟩, hn4, ⟨lf4, hlf4⟩, ⟨li4, hli4⟩⟩ :=
          ih ru rg _ ap vp v A s4 res4 hrest
        have he3 : (link_ancestors (link_parent s1 v iid) A iid).dirEdges =
            s.dirEdges ++ [(v, iid)] := by
          simp [link_ancestors, link_parent, he1]
        have hn3 : (link_ancestors (link_parent s1 v iid) A iid).nextInodeId
            = s.nextInodeId + 1 := by
          simp [link_ancestors, link_parent, hn1]
        have hf3 : (link_ancestors (link_parent s1 v iid) A iid).fullPaths =
            s1.fullPaths := by
          simp [link_ancestors, link_parent]
        have hi3 : (link_ancestors (link_parent s1 v iid) A iid).inodes =
            s1.inodes := by
          simp [link_ancestors, link_parent]
        have hout : s4.dirEdges = s.dirEdges ++ ((v, iid) :: l4) ∧
            s.nextInodeId ≤ s4.nextInodeId ∧
            s4.fullPaths = s.fullPaths ++
              ((iid, if joinPath vp e.name ≠ "" then joinPath vp e.name
                else joinPath ap e.name) :: lf4) ∧
            s4.inodes = s.inodes ++ (row :: li4) := by
          refine ⟨?_, by omega, ?_, ?_⟩
          · rw [hl4, he3]
            simp
          · rw [hlf4, hf3, hfp1]
            simp
          · rw [hli4, hi3, hrow.2.2.2]
            simp
        cases res4 with
        | error err =>
          dsimp only at h
          injection h with h1 h2
          subst h1
          subst h2
          refine ⟨⟨(v, iid) :: l4, hout.1, ?_⟩, hout.2.1,
            ⟨_, hout.2.2.1⟩, ⟨_, hout.2.2.2⟩⟩
          intro pc hpc
          rcases List.mem_cons.mp hpc with hm | hm
          · subst hm
            exact ⟨rfl, by omega⟩
          · have := hl4f pc hm
            omega
        | ok ps4 =>
          dsimp only at h
          injection h with h1 h2
          subst h1
          subst h2
          refine ⟨⟨(v, iid) :: l4, hout.1, ?_⟩, hout.2.1,
            ⟨_, hout.2.2.1⟩, ⟨_, hout.2.2.2⟩⟩
          intro pc hpc
          rcases List.mem_cons.mp hpc with hm | hm
          · subst hm
            exact ⟨rfl, by omega⟩
          · have := hl4f pc hm
            omega
    · rw [if_neg hc] at h
      exact ih ru rg s ap vp v A s' res h

theorem indexLoopF_mono :
    ∀ (fuel : Nat) (stack : List StackItem) (ru rg : Nat → Option String)
      (s : Store),
      (∃ l, (indexLoopF ru rg fuel s stack).1.dirEdges =
        s.dirEdges ++ l) ∧
      s.nextInodeId ≤ (indexLoopF ru rg fuel s stack).1.nextInodeId ∧
      (∃ l, (indexLoopF ru rg fuel s stack).1.fullPaths =
        s.fullPaths ++ l) ∧
      (∃ l, (indexLoopF ru rg fuel s stack).1.inodes = s.inodes ++ l) := by
  intro fuel
  induction fuel with
  | zero =>
    intro stack ru rg s
    cases stack with
    | nil =>
      exact ⟨⟨[], by simp [indexLoopF]⟩, le_refl _,
        ⟨[], by simp [indexLoopF]⟩, ⟨[], by simp [indexLoopF]⟩⟩
    | cons item rest =>
      exact ⟨⟨[], by simp [indexLoopF]⟩, le_refl _,
        ⟨[], by simp [indexLoopF]⟩, ⟨[], by simp [indexLoopF]⟩⟩
  | succ n ih =>
    intro stack ru rg s
    cases stack with
    | nil =>
      exact ⟨⟨[], by simp [indexLoopF]⟩, le_refl _,
        ⟨[], by simp [indexLoopF]⟩, ⟨[], by simp [indexLoopF]⟩⟩
    | cons item rest =>
      simp only [indexLoopF]
      by_cases hd : item.denied
      · simp only [hd, if_true]
        exact ih rest ru rg s
      · simp only [hd, if_false, Bool.false_eq_true]
        rcases hpe : processEntries ru rg s item.apath item.vdir
            item.inodeId (item.ancestors ++ [item.inodeId]) item.children
          with ⟨s1, res⟩
        obtain ⟨⟨l1, hl1, _⟩, hn1, ⟨lf1, hlf1⟩, ⟨li1, hli1⟩⟩ :=
          processEntries_edges item.children ru rg s item.apath item.vdir
            item.inodeId (item.ancestors ++ [item.inodeId]) s1 res hpe
        cases res with
        | error e =>
          exact ⟨⟨l1, hl1⟩, hn1, ⟨lf1, hlf1⟩, ⟨li1, hli1⟩⟩
        | ok pushed =>
          dsimp only
          obtain ⟨⟨l2, hl2⟩, hn2, ⟨lf2, hlf2⟩, ⟨li2, hli2⟩⟩ :=
            ih (pushed.reverse ++ rest) ru rg s1
          exact ⟨⟨l1 ++ l2, by rw [hl2, hl1]; simp⟩, by omega,
            ⟨lf1 ++ lf2, by rw [hlf2, hlf1]; simp⟩,
            ⟨li1 ++ li2, by rw [hli2, hli1]; simp⟩⟩

theorem get_or_create_user_ok {ru : Nat → Option String} (s : Store)
    {uid : Nat} (h : (ru uid).isSome = true) :
    ∃ s', get_or_create_user ru s uid = (s', .ok uid) := by
  unfold get_or_create_user
  by_cases hcache : uid ∈ s.userCache
  · rw [if_pos hcache]
    exact ⟨s, rfl⟩
  · rw [if_neg hcache]
    by_cases hex : s.users.any (fun u => u.1 == uid) = true
    · rw [if_pos hex]
      exact ⟨_, rfl⟩
    · rw [if_neg hex]
      cases hr : ru uid with
      | none => rw [hr] at h; cases h
      | some nm => exact ⟨_, rfl⟩

theorem get_or_create_group_ok {rg : Nat → Option String} (s : Store)
    {gid : Nat} (h : (rg gid).isSome = true) :
    ∃ s', get_or_create_group rg s gid = (s', .ok gid) := by
  unfold get_or_create_group
  by_cases hcache : gid ∈ s.groupCache
  · rw [if_pos hcache]
    exact ⟨s, rfl⟩
  · rw [if_neg hcache]
    by_cases hex : s.groups.any (fun g => g.1 == gid) = true
    · rw [if_pos hex]
      exact ⟨_, rfl⟩
    · rw [if_neg hex]
      cases hr : rg gid with
      | none => rw [hr] at h; cases h
      | some nm => exact ⟨_, rfl⟩

theorem create_inode_ok_of_good {ru rg : Nat → Option String} (s : Store)
    (nm ap : String) {m : FileStat} (ty : Nat) (fp : String)
    (hru : (ru m.uid).isSome = true) (hrg : (rg m.gid).isSome = true) :
    ∃ s1 iid, create_inode ru rg s nm ap (some m) ty fp = (s1, .ok iid) := by
  unfold create_inode
  dsimp only
  obtain ⟨su, hu⟩ := get_or_create_user_ok s hru
  rw [hu]
  dsimp only
  obtain ⟨sg, hg⟩ := get_or_create_group_ok su hrg
  rw [hg]
  exact ⟨_, _, rfl⟩

theorem classifyEntry_ne_zero_iff (e : FsEntry) :
    classifyEntry e ≠ 0 ↔ (e.isDir || e.isFile || e.isSymlink) = true := by
  cases e with
  | node n d f l st dn cs =>
    cases d <;> cases f <;> cases l <;>
      simp [classifyEntry, FsEntry.isDir, FsEntry.isFile,
        FsEntry.isSymlink, DIRECTORY, FILE, SOFTLINK]

theorem classifyEntry_eq_dir (e : FsEntry) :
    classifyEntry e = DIRECTORY ↔ e.isDir = true := by
  cases e with
  | node n d f l st dn cs =>
    cases d <;> cases f <;> cases l <;>
      simp [classifyEntry, FsEntry.isDir, FsEntry.isFile,
        FsEntry.isSymlink, DIRECTORY, FILE, SOFTLINK]

theorem goodEntry_spec {ru rg : Nat → Option String} {e : FsEntry}
    (h : goodEntry ru rg e = true) :
    (classifyEntry e ≠ 0 → ∃ m, e.st = some m ∧
      (ru m.uid).isSome = true ∧ (rg m.gid).isSome = true) ∧
    (e.isDir = true → e.denied = false →
      goodEntries ru rg e.children = true) := by
  cases e with
  | node n d f l st dn cs =>
    rw [goodEntry.eq_def] at h
    rw [Bool.and_eq_true] at h
    constructor
    · intro hc
      have hdfl : (d || f || l) = true := by
        have := (classifyEntry_ne_zero_iff _).mp hc
        simpa [FsEntry.isDir, FsEntry.isFile, FsEntry.isSymlink] using this
      have h1 := h.1
      rw [if_pos hdfl] at h1
      cases hst : st with
      | none => rw [hst] at h1; cases h1
      | some m =>
        rw [hst] at h1
        exact ⟨m, rfl, (Bool.and_eq_true _ _).mp h1⟩
    · intro hd hdn
      have hd' : d = true := hd
      have hdn' : dn = false := hdn
      have h2 := h.2
      rw [hd', hdn'] at h2
      simpa using h2

theorem goodEntries_cons {ru rg : Nat → Option String} {e : FsEntry}
    {es : List FsEntry} (h : goodEntries ru rg (e :: es) = true) :
    goodEntry ru rg e = true ∧ goodEntries ru rg es = true := by
  rw [goodEntries, Bool.and_eq_true] at h
  exact h

theorem joinPath_ne_empty (a b : String) : joinPath a b ≠ "" := by
  unfold joinPath
  split
  · intro h
    have h2 := congrArg String.length h
    rw [String.length_append] at h2
    have e2 : "".length = 0 := rfl
    have e3 : "/".length = 1 := rfl
    omega
  · intro h
    have h2 := congrArg String.length h
    rw [String.length_append, String.length_append] at h2
    have e2 : "".length = 0 := rfl
    have e3 : "/".length = 1 := rfl
    omega

theorem processEntries_ok_of_good :
    ∀ (es : List FsEntry) (ru rg : Nat → Option String) (s : Store)
      (ap vp : String) (v : Nat) (A : List Nat),
      goodEntries ru rg es = true →
      ∃ s' ps, processEntries ru rg s ap vp v A es = (s', .ok ps) := by
  intro es
  induction es with
  | nil =>
    intro ru rg s ap vp v A hg
    exact ⟨s, [], rfl⟩
  | cons e rest ih =>
    intro ru rg s ap vp v A hg
    obtain ⟨hge, hgrest⟩ := goodEntries_cons hg
    by_cases hc : classifyEntry e ≠ 0
    · obtain ⟨m, hst, hru, hrg⟩ := (goodEntry_spec hge).1 hc
      obtain ⟨s1, iid, hcr⟩ := create_inode_ok_of_good s e.name
        (joinPath ap e.name) (classifyEntry e) (joinPath vp e.name) hru hrg
      rw [← hst] at hcr
      obtain ⟨s4, ps4, hrest⟩ := ih ru rg
        (link_ancestors (link_parent s1 v iid) A iid) ap vp v A hgrest
      refine ⟨s4, (if classifyEntry e = DIRECTORY then
        [⟨joinPath ap e.name, joinPath vp e.name, iid, A, e.denied,
          e.children⟩] else []) ++ ps4, ?_⟩
      simp only [processEntries, if_pos hc]
      rw [hcr]
      dsimp only
      rw [hrest]
    · obtain ⟨s', ps, hrest⟩ := ih ru rg s ap vp v A hgrest
      refine ⟨s', ps, ?_⟩
      simp only [processEntries, if_neg hc]
      exact hrest

theorem processEntries_pushes_good :
    ∀ (es : List FsEntry) (ru rg : Nat → Option String) (s : Store)
      (ap vp : String) (v : Nat) (A : List Nat) (s' : Store)
      (ps : List StackItem),
      processEntries ru rg s ap vp v A es = (s', .ok ps) →
      goodEntries ru rg es = true →
      ∀ it ∈ ps, it.denied = false → goodEntries ru rg it.children = true
    := by
  intro es
  induction es with
  | nil =>
    intro ru rg s ap vp v A s' ps h hg it hit
    simp only [processEntries, Prod.mk.injEq, Except.ok.injEq] at h
    obtain ⟨rfl, rfl⟩ := h
    simp at hit
  | cons e rest ih =>
    intro ru rg s ap vp v A s' ps h hg it hit hden
    obtain ⟨hge, hgrest⟩ := goodEntries_cons hg
    simp only [processEntries] at h
    by_cases hc : classifyEntry e ≠ 0
    · rw [if_pos hc] at h
      rcases hci : create_inode ru rg s e.name (joinPath ap e.name) e.st
          (classifyEntry e) (joinPath vp e.name) with ⟨s1, cres⟩
      rw [hci] at h
      cases cres with
      | error err => simp at h
      | ok iid =>
        dsimp only at h
        rcases hrest : processEntries ru rg
            (link_ancestors (link_parent s1 v iid) A iid) ap vp v A rest
          with ⟨s4, res4⟩
        rw [hrest] at h
        cases res4 with
        | error err => simp at h
        | ok ps4 =>
          dsimp only at h
          injection h with h1 h2
          subst h1
          injection h2 with h2
          subst h2
          rcases List.mem_append.mp hit with hm | hm
          · by_cases hdir : classifyEntry e = DIRECTORY
            · rw [if_pos hdir] at hm
              simp at hm
              subst hm
              exact (goodEntry_spec hge).2
                ((classifyEntry_eq_dir e).mp hdir) hden
            · rw [if_neg hdir] at hm
              simp at hm
          · exact ih ru rg _ ap vp v A s4 ps4 hrest hgrest it hm hden
    · rw [if_neg hc] at h
      exact ih ru rg s ap vp v A s' ps h hgrest it hit hden

theorem processEntries_creates :
    ∀ (es : List FsEntry) (ru rg : Nat → Option String) (s : Store)
      (ap vp : String) (v : Nat) (A : List Nat) (s' : Store)
      (ps : List StackItem),
      processEntries ru rg s ap vp v A es = (s', .ok ps) →
      ∀ (i : Nat) (e : FsEntry), es[i]? = some e → classifyEntry e ≠ 0 →
      ∃ id row, (id, joinPath vp e.name) ∈ s'.fullPaths ∧
        row ∈ s'.inodes ∧ row.id = id ∧
        row.node_type = classifyEntry e ∧ row.name = e.name := by
  intro es
  induction es with
  | nil =>
    intro ru rg s ap vp v A s' ps h i e hi
    simp at hi
  | cons e0 rest ih =>
    intro ru rg s ap vp v A s' ps h i e hi hc
    simp only [processEntries] at h
    by_cases hc0 : classifyEntry e0 ≠ 0
    · rw [if_pos hc0] at h
      rcases hci : create_inode ru rg s e0.name (joinPath ap e0.name) e0.st
          (classifyEntry e0) (joinPath vp e0.name) with ⟨s1, cres⟩
      rw [hci] at h
      cases cres with
      | error err => simp at h
      | ok iid =>
        dsimp only at h
        rcases hrest : processEntries ru rg
            (link_ancestors (link_parent s1 v iid) A iid) ap vp v A rest
          with ⟨s4, res4⟩
        rw [hrest] at h
        cases res4 with
        | error err => simp at h
        | ok ps4 =>
          dsimp only at h
          injection h with h1 h2
          subst h1
          cases i with
          | zero =>
            simp only [List.getElem?_cons_zero, Option.some.injEq] at hi
            subst hi
            obtain ⟨hiid, hn1, he1, ha1, _, _, ⟨row, hrow⟩, hfp1⟩ :=
              create_inode_ok_shape hci
            obtain ⟨_, _, ⟨lf4, hlf4⟩, ⟨li4, hli4⟩⟩ :=
              processEntries_edges rest ru rg _ ap vp v A s4 (.ok ps4)
                hrest
            have hf3 : (link_ancestors (link_parent s1 v iid) A
                iid).fullPaths = s1.fullPaths := by
              simp [link_ancestors, link_parent]
            have hi3 : (link_ancestors (link_parent s1 v iid) A
                iid).inodes = s1.inodes := by
              simp [link_ancestors, link_parent]
            refine ⟨iid, row, ?_, ?_, hrow.1, hrow.2.1, hrow.2.2.1⟩
            · rw [hlf4, hf3, hfp1, if_pos (joinPath_ne_empty vp e0.name)]
              simp
            · rw [hli4, hi3, hrow.2.2.2]
              simp
          | succ j =>
            simp only [List.getElem?_cons_succ] at hi
            exact ih ru rg _ ap vp v A s4 ps4 hrest j e hi hc
    · rw [if_neg hc0] at h
      cases i with
      | zero =>
        simp only [List.getElem?_cons_zero, Option.some.injEq] at hi
        subst hi
        exact absurd hc hc0
      | succ j =>
        simp only [List.getElem?_cons_succ] at hi
        exact ih ru rg s ap vp v A s' ps h j e hi hc

theorem processEntries_push_ids :
    ∀ (es : List FsEntry) (ru rg : Nat → Option String) (s : Store)
      (ap vp : String) (v : Nat) (A : List Nat) (s' : Store)
      (ps : List StackItem),
      processEntries ru rg s ap vp v A es = (s', .ok ps) →
      ∀ it ∈ ps, s.nextInodeId ≤ it.inodeId ∧
        it.inodeId < s'.nextInodeId := by
  intro es
  induction es with
  | nil =>
    intro ru rg s ap vp v A s' ps h it hit
    simp only [processEntries, Prod.mk.injEq, Except.ok.injEq] at h
    obtain ⟨rfl, rfl⟩ := h
    simp at hit
  | cons e rest ih =>
    intro ru rg s ap vp v A s' ps h it hit
    simp only [processEntries] at h
    by_cases hc : classifyEntry e ≠ 0
    · rw [if_pos hc] at h
      rcases hci : create_inode ru rg s e.name (joinPath ap e.name) e.st
          (classifyEntry e) (joinPath vp e.name) with ⟨s1, cres⟩
      rw [hci] at h
      cases cres with
      | error err => simp at h
      | ok iid =>
        dsimp only at h
        rcases hrest : processEntries ru rg
            (link_ancestors (link_parent s1 v iid) A iid) ap vp v A rest
          with ⟨s4, res4⟩
        rw [hrest] at h
        cases res4 with
        | error err => simp at h
        | ok ps4 =>
          dsimp only at h
          injection h with h1 h2
          subst h1
          injection h2 with h2
          subst h2
          obtain ⟨hiid, hn1, _, _, _, _, _, _⟩ := create_inode_ok_shape hci
          have hn3 : (link_ancestors (link_parent s1 v iid) A
              iid).nextInodeId = s.nextInodeId + 1 := by
            simp [link_ancestors, link_parent, hn1]
          obtain ⟨_, hn4, _, _⟩ :=
            processEntries_edges rest ru rg _ ap vp v A s4 (.ok ps4) hrest
          rcases List.mem_append.mp hit with hm | hm
          · by_cases hdir : classifyEntry e = DIRECTORY
            · rw [if_pos hdir] at hm
              simp at hm
              subst hm
              constructor
              · simp [hiid]
              · simp only
                omega
            · rw [if_neg hdir] at hm
              simp at hm
          · have := ih ru rg _ ap vp v A s4 ps4 hrest it hm
            omega
    · rw [if_neg hc] at h
      exact ih ru rg s ap vp v A s' ps h it hit

theorem processEntries_pushes :
    ∀ (es : List FsEntry) (ru rg : Nat → Option String) (s : Store)
      (ap vp : String) (v : Nat) (A : List Nat) (s' : Store)
      (ps : List StackItem),
      processEntries ru rg s ap vp v A es = (s', .ok ps) →
      v < s.nextInodeId →
      (∀ pc ∈ s.dirEdges, pc.1 < s.nextInodeId) →
      ∀ (i : Nat) (e : FsEntry), es[i]? = some e → e.isDir = true →
      ∃ it, it ∈ ps ∧ it.children = e.children ∧ it.denied = e.denied ∧
        it.vdir = joinPath vp e.name ∧
        s.nextInodeId ≤ it.inodeId ∧ it.inodeId < s'.nextInodeId ∧
        (∀ c, (it.inodeId, c) ∉ s'.dirEdges) ∧
        (∀ it2 ∈ ps, it2.inodeId = it.inodeId → it2.denied = e.denied) ∧
        (it.inodeId, joinPath vp e.name) ∈ s'.fullPaths ∧
        (∃ row, row ∈ s'.inodes ∧ row.id = it.inodeId ∧
          row.node_type = DIRECTORY) := by
  intro es
  induction es with
  | nil =>
    intro ru rg s ap vp v A s' ps h hv hpb i e hi
    simp at hi
  | cons e0 rest ih =>
    intro ru rg s ap vp v A s' ps h hv hpb i e hi hdir
    simp only [processEntries] at h
    by_cases hc0 : classifyEntry e0 ≠ 0
    · rw [if_pos hc0] at h
      rcases hci : create_inode ru rg s e0.name (joinPath ap e0.name) e0.st
          (classifyEntry e0) (joinPath vp e0.name) with ⟨s1, cres⟩
      rw [hci] at h
      cases cres with
      | error err => simp at h
      | ok iid =>
        dsimp only at h
        rcases hrest : processEntries ru rg
            (link_ancestors (link_parent s1 v iid) A iid) ap vp v A rest
          with ⟨s4, res4⟩
        rw [hrest] at h
        cases res4 with
        | error err => simp at h
        | ok ps4 =>
          dsimp only at h
          injection h with h1 h2
          subst h1
          injection h2 with h2
          subst h2
          obtain ⟨hiid, hn1, he1, ha1, _, _, ⟨row, hrow⟩, hfp1⟩ :=
            create_inode_ok_shape hci
          have hn3 : (link_ancestors (link_parent s1 v iid) A
              iid).nextInodeId = s.nextInodeId + 1 := by
            simp [link_ancestors, link_parent, hn1]
          have he3 : (link_ancestors (link_parent s1 v iid) A
              iid).dirEdges = s.dirEdges ++ [(v, iid)] := by
            simp [link_ancestors, link_parent, he1]
          have hf3 : (link_ancestors (link_parent s1 v iid) A
              iid).fullPaths = s1.fullPaths := by
            simp [link_ancestors, link_parent]
          have hi3 : (link_ancestors (link_parent s1 v iid) A
              iid).inodes = s1.inodes := by
            simp [link_ancestors, link_parent]
          obtain ⟨⟨l4, hl4, hl4f⟩, hn4, ⟨lf4, hlf4⟩, ⟨li4, hli4⟩⟩ :=
            processEntries_edges rest ru rg _ ap vp v A s4 (.ok ps4) hrest
          have hids := processEntries_push_ids rest ru rg _ ap vp v A s4
            ps4 hrest
          cases i with
          | zero =>
            simp only [List.getElem?_cons_zero, Option.some.injEq] at hi
            subst hi
            have hdir0 : classifyEntry e0 = DIRECTORY :=
              (classifyEntry_eq_dir e0).mpr hdir
            refine ⟨⟨joinPath ap e0.name, joinPath vp e0.name, iid, A,
              e0.denied, e0.children⟩, ?_, rfl, rfl, rfl, ?_, ?_, ?_, ?_,
              ?_, ?_⟩
            · rw [if_pos hdir0]
              simp
            · simp [hiid]
            · simp only
              omega
            · intro c hmem
              simp only at hmem
              rw [hl4, he3] at hmem
              rcases List.mem_append.mp hmem with hmm | hmm
              · rcases List.mem_append.mp hmm with hs0 | hs0
                · have := hpb _ hs0
                  simp at this
                  omega
                · simp at hs0
                  omega
              · have := hl4f _ hmm
                simp only at this
                omega
            · intro it2 hit2 heq
              rcases List.mem_append.mp hit2 with hm2 | hm2
              · rw [if_pos hdir0] at hm2
                simp at hm2
                subst hm2
                rfl
              · have := (hids it2 hm2).1
                rw [hn3] at this
                simp only at heq
                omega
            · show (iid, joinPath vp e0.name) ∈ s4.fullPaths
              rw [hlf4, hf3, hfp1,
                if_pos (joinPath_ne_empty vp e0.name)]
              simp
            · refine ⟨row, ?_, hrow.1, hdir0 ▸ hrow.2.1⟩
              rw [hli4, hi3, hrow.2.2.2]
              simp
          | succ j =>
            simp only [List.getElem?_cons_succ] at hi
            have hv3 : v < (link_ancestors (link_parent s1 v iid) A
                iid).nextInodeId := by
              rw [hn3]
              omega
            have hpb3 : ∀ pc ∈ (link_ancestors (link_parent s1 v iid) A
                iid).dirEdges,
                pc.1 < (link_ancestors (link_parent s1 v iid) A
                  iid).nextInodeId := by
              intro pc hpc
              rw [he3] at hpc
              rw [hn3]
              rcases List.mem_append.mp hpc with hm | hm
              · have := hpb _ hm
                omega
              · simp at hm
                have hm1 : pc.1 = v := by rw [hm]
                rw [hm1]
                omega
            obtain ⟨it, hitmem, hch, hden, hvd, hlo, hhi, hnoedge, huniq,
              hfpmem, hrowmem⟩ :=
              ih ru rg _ ap vp v A s4 ps4 hrest hv3 hpb3 j e hi hdir
            refine ⟨it, List.mem_append.mpr (Or.inr hitmem), hch, hden,
              hvd, ?_, hhi, hnoedge, ?_, hfpmem, hrowmem⟩
            · rw [hn3] at hlo
              omega
            · intro it2 hit2 heq
              rcases List.mem_append.mp hit2 with hm2 | hm2
              · by_cases hdir0 : classifyEntry e0 = DIRECTORY
                · rw [if_pos hdir0] at hm2
                  simp at hm2
                  subst hm2
                  rw [hn3] at hlo
                  simp only at heq
                  omega
                · rw [if_neg hdir0] at hm2
                  simp at hm2
              · exact huniq it2 hm2 heq
    · rw [if_neg hc0] at h
      cases i with
      | zero =>
        simp only [List.getElem?_cons_zero, Option.some.injEq] at hi
        subst hi
        exact absurd ((classifyEntry_eq_dir e0).mpr hdir)
          (by simp [DIRECTORY] at hc0 ⊢; omega)
      | succ j =>
        simp only [List.getElem?_cons_succ] at hi
        exact ih ru rg s ap vp v A s' ps h hv hpb j e hi hdir


/-- In a benign environment (every readable directory on the stack has good
entries) the traversal loop never raises: permission-denied directories are
caught and skipped, and nothing else can fail. -/
theorem indexLoopF_ok_of_good :
    ∀ (fuel : Nat) (stack : List StackItem) (ru rg : Nat → Option String)
      (s : Store),
      (∀ it ∈ stack, it.denied = false →
        goodEntries ru rg it.children = true) →
      (indexLoopF ru rg fuel s stack).2 = none := by
  intro fuel
  induction fuel with
  | zero =>
    intro stack ru rg s hg
    cases stack <;> rfl
  | succ n ih =>
    intro stack ru rg s hg
    cases stack with
    | nil => rfl
    | cons item rest =>
      simp only [indexLoopF]
      by_cases hd : item.denied
      · simp only [hd, if_true]
        exact ih rest ru rg s fun it hit => hg it (List.mem_cons_of_mem _ hit)
      · simp only [hd, if_false, Bool.false_eq_true]
        have hdf : item.denied = false := by simpa using hd
        have hgood := hg item (List.mem_cons_self _ _) hdf
        rcases hpe : processEntries ru rg s item.apath item.vdir
            item.inodeId (item.ancestors ++ [item.inodeId]) item.children
          with ⟨s1, res⟩
        cases res with
        | error e =>
          exfalso
          obtain ⟨s1', ps', heq⟩ := processEntries_ok_of_good item.children
            ru rg s item.apath item.vdir item.inodeId
            (item.ancestors ++ [item.inodeId]) hgood
          rw [heq] at hpe
          simp at hpe
        | ok pushed =>
          dsimp only
          apply ih
          intro it hit hden
          rcases List.mem_append.mp hit with hm | hm
          · exact processEntries_pushes_good item.children ru rg s
              item.apath item.vdir item.inodeId
              (item.ancestors ++ [item.inodeId]) s1 pushed hpe hgood it
              (List.mem_reverse.mp hm) hden
          · exact hg it (List.mem_cons_of_mem _ hm) hden

/-- An inode that already exists, is nowhere on the stack except possibly
as a permission-denied item, and has no outgoing `Directory` edge, never
gains one during the rest of the traversal: denied directories stay
childless. -/
theorem indexLoopF_no_new_parents :
    ∀ (fuel : Nat) (stack : List StackItem) (ru rg : Nat → Option String)
      (s : Store) (p : Nat),
      p < s.nextInodeId →
      (∀ it ∈ stack, it.inodeId = p → it.denied = true) →
      ∀ c, (p, c) ∉ s.dirEdges →
        (p, c) ∉ (indexLoopF ru rg fuel s stack).1.dirEdges := by
  intro fuel
  induction fuel with
  | zero =>
    intro stack ru rg s p hp hstack c hnc
    cases stack with
    | nil => exact hnc
    | cons item rest => exact hnc
  | succ n ih =>
    intro stack ru rg s p hp hstack c hnc
    cases stack with
    | nil => exact hnc
    | cons item rest =>
      simp only [indexLoopF]
      by_cases hd : item.denied
      · simp only [hd, if_true]
        exact ih rest ru rg s p hp
          (fun it hit => hstack it (List.mem_cons_of_mem _ hit)) c hnc
      · simp only [hd, if_false, Bool.false_eq_true]
        have hpne : item.inodeId ≠ p := by
          intro he
          exact hd (hstack item (List.mem_cons_self _ _) he)
        rcases hpe : processEntries ru rg s item.apath item.vdir
            item.inodeId (item.ancestors ++ [item.inodeId]) item.children
          with ⟨s1, res⟩
        obtain ⟨⟨l, hl, hlf⟩, hn1, _, _⟩ :=
          processEntries_edges item.children ru rg s item.apath item.vdir
            item.inodeId (item.ancestors ++ [item.inodeId]) s1 res hpe
        have hnc1 : (p, c) ∉ s1.dirEdges := by
          rw [hl]
          intro hmem
          rcases List.mem_append.mp hmem with hm | hm
          · exact hnc hm
          · exact hpne (hlf _ hm).1.symm
        cases res with
        | error e => exact hnc1
        | ok pushed =>
          dsimp only
          refine ih (pushed.reverse ++ rest) ru rg s1 p (by omega) ?_ c hnc1
          intro it hit heq
          rcases List.mem_append.mp hit with hm | hm
          · have := processEntries_push_ids item.children ru rg s
              item.apath item.vdir item.inodeId
              (item.ancestors ++ [item.inodeId]) s1 pushed hpe it
              (List.mem_reverse.mp hm)
            omega
          · exact hstack it (List.mem_cons_of_mem _ hm) heq

/-- Every entry the traversal can reach (no permission-denied directory on
the way to it) and recognizes (nonzero classification) ends up indexed: the
final store holds a `FullPath` row at the entry's virtual path and an
`Inode` row with the entry's classification and name. -/
theorem indexLoopF_visits :
    ∀ (fuel : Nat) (stack : List StackItem) (ru rg : Nat → Option String)
      (s : Store),
      stackMeasure stack ≤ fuel →
      (∀ it ∈ stack, it.denied = false →
        goodEntries ru rg it.children = true) →
      (∀ it ∈ stack, it.inodeId < s.nextInodeId) →
      (∀ pc ∈ s.dirEdges, pc.1 < s.nextInodeId) →
      ∀ it ∈ stack, it.denied = false →
      ∀ (π : List Nat) (e : FsEntry),
        entryAtL it.children π = some e → visOk it.children π = true →
        classifyEntry e ≠ 0 →
        ∃ id row,
          (id, vpathAt it.vdir it.children π) ∈
            (indexLoopF ru rg fuel s stack).1.fullPaths ∧
          row ∈ (indexLoopF ru rg fuel s stack).1.inodes ∧
          row.id = id ∧ row.node_type = classifyEntry e ∧
          row.name = e.name := by
  intro fuel
  induction fuel with
  | zero =>
    intro stack ru rg s hm hg hid hpb it hit hden π e hat hvis hcl
    cases stack with
    | nil => simp at hit
    | cons item rest =>
      exfalso
      simp [stackMeasure, itemMeasure] at hm
  | succ n ih =>
    intro stack ru rg s hm hg hid hpb it hit hden π e hat hvis hcl
    cases stack with
    | nil => simp at hit
    | cons item rest =>
      simp only [indexLoopF]
      by_cases hd : item.denied
      · simp only [hd, if_true]
        have hm1 : 1 ≤ itemMeasure item := Nat.le_add_right 1 _
        have hm' : stackMeasure rest ≤ n := by
          simp only [stackMeasure] at hm
          omega
        rcases List.mem_cons.mp hit with rfl | hmem
        · exact absurd hd (by simp [hden])
        · exact ih rest ru rg s hm'
            (fun it2 h2 => hg it2 (List.mem_cons_of_mem _ h2))
            (fun it2 h2 => hid it2 (List.mem_cons_of_mem _ h2)) hpb it hmem
            hden π e hat hvis hcl
      · simp only [hd, if_false, Bool.false_eq_true]
        have hdf : item.denied = false := by simpa using hd
        have hgood := hg item (List.mem_cons_self _ _) hdf
        rcases hpe : processEntries ru rg s item.apath item.vdir
            item.inodeId (item.ancestors ++ [item.inodeId]) item.children
          with ⟨s1, res⟩
        cases res with
        | error err =>
          exfalso
          obtain ⟨s1', ps', heq⟩ := processEntries_ok_of_good item.children
            ru rg s item.apath item.vdir item.inodeId
            (item.ancestors ++ [item.inodeId]) hgood
          rw [heq] at hpe
          simp at hpe
        | ok pushed =>
          dsimp only
          obtain ⟨⟨l, hl, hlf⟩, hn1, _, _⟩ :=
            processEntries_edges item.children ru rg s item.apath item.vdir
              item.inodeId (item.ancestors ++ [item.inodeId]) s1
              (.ok pushed) hpe
          have hmeas : stackMeasure (pushed.reverse ++ rest) ≤ n := by
            have h1 := processEntries_measure item.children ru rg s
              item.apath item.vdir item.inodeId
              (item.ancestors ++ [item.inodeId]) s1 pushed hpe
            have h2 : stackMeasure (item :: rest) =
                itemMeasure item + stackMeasure rest := rfl
            have h3 : itemMeasure item =
                1 + entryListSize item.children := rfl
            rw [stackMeasure_append, stackMeasure_reverse]
            omega
          have hgood' : ∀ it2 ∈ pushed.reverse ++ rest,
              it2.denied = false →
              goodEntries ru rg it2.children = true := by
            intro it2 h2 hden2
            rcases List.mem_append.mp h2 with hm2 | hm2
            · exact processEntries_pushes_good item.children ru rg s
                item.apath item.vdir item.inodeId
                (item.ancestors ++ [item.inodeId]) s1 pushed hpe hgood it2
                (List.mem_reverse.mp hm2) hden2
            · exact hg it2 (List.mem_cons_of_mem _ hm2) hden2
          have hid' : ∀ it2 ∈ pushed.reverse ++ rest,
              it2.inodeId < s1.nextInodeId := by
            intro it2 h2
            rcases List.mem_append.mp h2 with hm2 | hm2
            · exact (processEntries_push_ids item.children ru rg s
                item.apath item.vdir item.inodeId
                (item.ancestors ++ [item.inodeId]) s1 pushed hpe it2
                (List.mem_reverse.mp hm2)).2
            · have := hid it2 (List.mem_cons_of_mem _ hm2)
              omega
          have hpb' : ∀ pc ∈ s1.dirEdges, pc.1 < s1.nextInodeId := by
            intro pc hpc
            rw [hl] at hpc
            rcases List.mem_append.mp hpc with hm2 | hm2
            · have := hpb pc hm2
              omega
            · have h2 := hlf pc hm2
              have h3 := hid item (List.mem_cons_self _ _)
              omega
          rcases List.mem_cons.mp hit with rfl | hmem
          · cases π with
            | nil => simp [entryAtL] at hat
            | cons i ρ =>
              simp only [entryAtL] at hat
              rcases hie : it.children[i]? with _ | e'
              · rw [hie] at hat
                simp at hat
              · rw [hie] at hat
                dsimp only at hat
                by_cases hρ : ρ = []
                · subst hρ
                  rw [if_pos rfl] at hat
                  injection hat with hat
                  subst hat
                  obtain ⟨id, row, hfp, hrow, hrid, hrty, hrnm⟩ :=
                    processEntries_creates it.children ru rg s it.apath
                      it.vdir it.inodeId
                      (it.ancestors ++ [it.inodeId]) s1 pushed hpe i e'
                      hie hcl
                  have hvp : vpathAt it.vdir it.children [i] =
                      joinPath it.vdir e'.name := by
                    simp [vpathAt, hie]
                  obtain ⟨_, _, ⟨lf2, hlf2⟩, ⟨li2, hli2⟩⟩ :=
                    indexLoopF_mono n (pushed.reverse ++ rest) ru rg s1
                  refine ⟨id, row, ?_, ?_, hrid, hrty, hrnm⟩
                  · rw [hvp, hlf2]
                    exact List.mem_append_left _ hfp
                  · rw [hli2]
                    exact List.mem_append_left _ hrow
                · rw [if_neg hρ] at hat
                  simp only [visOk, hρ, if_false, hie] at hvis
                  rw [Bool.and_eq_true, Bool.and_eq_true] at hvis
                  obtain ⟨⟨hdir', hnd'⟩, hvis'⟩ := hvis
                  have hnd2 : e'.denied = false := by simpa using hnd'
                  obtain ⟨it', hitm, hch, hdn, hvd, hlo, hhi, hnoe, huq,
                    hfpm, hrwm⟩ :=
                    processEntries_pushes it.children ru rg s it.apath
                      it.vdir it.inodeId
                      (it.ancestors ++ [it.inodeId]) s1 pushed hpe
                      (hid it (List.mem_cons_self _ _)) hpb i e' hie
                      hdir'
                  obtain ⟨id, row, hfp, hrow, hrid, hrty, hrnm⟩ :=
                    ih (pushed.reverse ++ rest) ru rg s1 hmeas hgood' hid'
                      hpb' it'
                      (List.mem_append_left _ (List.mem_reverse.mpr hitm))
                      (by rw [hdn]; exact hnd2) ρ e
                      (by rw [hch]; exact hat) (by rw [hch]; exact hvis')
                      hcl
                  refine ⟨id, row, ?_, hrow, hrid, hrty, hrnm⟩
                  have hvp : vpathAt it.vdir it.children (i :: ρ) =
                      vpathAt (joinPath it.vdir e'.name) e'.children
                        ρ := by
                    simp [vpathAt, hie]
                  rw [hvp, ← hvd, ← hch]
                  exact hfp
          · exact ih (pushed.reverse ++ rest) ru rg s1 hmeas hgood' hid'
              hpb' it (List.mem_append_right _ hmem) hden π e hat hvis hcl

/-- A reachable permission-denied directory entry is indexed as a childless
leaf: the final store holds its `FullPath` row and a `DIRECTORY` inode row
for it, but no `Directory` edge ever leaves that inode — `os.scandir`
raises before any of its contents are seen, and the loop merely prints and
moves on. -/
theorem indexLoopF_denied_leaf :
    ∀ (fuel : Nat) (stack : List StackItem) (ru rg : Nat → Option String)
      (s : Store),
      stackMeasure stack ≤ fuel →
      (∀ it ∈ stack, it.denied = false →
        goodEntries ru rg it.children = true) →
      (∀ it ∈ stack, it.inodeId < s.nextInodeId) →
      (∀ pc ∈ s.dirEdges, pc.1 < s.nextInodeId) →
      ∀ it ∈ stack, it.denied = false →
      ∀ (π : List Nat) (e : FsEntry),
        entryAtL it.children π = some e → visOk it.children π = true →
        e.isDir = true → e.denied = true →
        ∃ id,
          (id, vpathAt it.vdir it.children π) ∈
            (indexLoopF ru rg fuel s stack).1.fullPaths ∧
          (∃ row, row ∈ (indexLoopF ru rg fuel s stack).1.inodes ∧
            row.id = id ∧ row.node_type = DIRECTORY) ∧
          (∀ c, (id, c) ∉ (indexLoopF ru rg fuel s stack).1.dirEdges) := by
  intro fuel
  induction fuel with
  | zero =>
    intro stack ru rg s hm hg hid hpb it hit hden π e hat hvis hed hedn
    cases stack with
    | nil => simp at hit
    | cons item rest =>
      exfalso
      simp [stackMeasure, itemMeasure] at hm
  | succ n ih =>
    intro stack ru rg s hm hg hid hpb it hit hden π e hat hvis hed hedn
    cases stack with
    | nil => simp at hit
    | cons item rest =>
      simp only [indexLoopF]
      by_cases hd : item.denied
      · simp only [hd, if_true]
        have hm1 : 1 ≤ itemMeasure item := Nat.le_add_right 1 _
        have hm' : stackMeasure rest ≤ n := by
          simp only [stackMeasure] at hm
          omega
        rcases List.mem_cons.mp hit with rfl | hmem
        · exact absurd hd (by simp [hden])
        · exact ih rest ru rg s hm'
            (fun it2 h2 => hg it2 (List.mem_cons_of_mem _ h2))
            (fun it2 h2 => hid it2 (List.mem_cons_of_mem _ h2)) hpb it hmem
            hden π e hat hvis hed hedn
      · simp only [hd, if_false, Bool.false_eq_true]
        have hdf : item.denied = false := by simpa using hd
        have hgood := hg item (List.mem_cons_self _ _) hdf
        rcases hpe : processEntries ru rg s item.apath item.vdir
            item.inodeId (item.ancestors ++ [item.inodeId]) item.children
          with ⟨s1, res⟩
        cases res with
        | error err =>
          exfalso
          obtain ⟨s1', ps', heq⟩ := processEntries_ok_of_good item.children
            ru rg s item.apath item.vdir item.inodeId
            (item.ancestors ++ [item.inodeId]) hgood
          rw [heq] at hpe
          simp at hpe
        | ok pushed =>
          dsimp only
          obtain ⟨⟨l, hl, hlf⟩, hn1, _, _⟩ :=
            processEntries_edges item.children ru rg s item.apath item.vdir
              item.inodeId (item.ancestors ++ [item.inodeId]) s1
              (.ok pushed) hpe
          have hmeas : stackMeasure (pushed.reverse ++ rest) ≤ n := by
            have h1 := processEntries_measure item.children ru rg s
              item.apath item.vdir item.inodeId
              (item.ancestors ++ [item.inodeId]) s1 pushed hpe
            have h2 : stackMeasure (item :: rest) =
                itemMeasure item + stackMeasure rest := rfl
            have h3 : itemMeasure item =
                1 + entryListSize item.children := rfl
            rw [stackMeasure_append, stackMeasure_reverse]
            omega
          have hgood' : ∀ it2 ∈ pushed.reverse ++ rest,
              it2.denied = false →
              goodEntries ru rg it2.children = true := by
            intro it2 h2 hden2
            rcases List.mem_append.mp h2 with hm2 | hm2
            · exact processEntries_pushes_good item.children ru rg s
                item.apath item.vdir item.inodeId
                (item.ancestors ++ [item.inodeId]) s1 pushed hpe hgood it2
                (List.mem_reverse.mp hm2) hden2
            · exact hg it2 (List.mem_cons_of_mem _ hm2) hden2
          have hid' : ∀ it2 ∈ pushed.reverse ++ rest,
              it2.inodeId < s1.nextInodeId := by
            intro it2 h2
            rcases List.mem_append.mp h2 with hm2 | hm2
            · exact (processEntries_push_ids item.children ru rg s
                item.apath item.vdir item.inodeId
                (item.ancestors ++ [item.inodeId]) s1 pushed hpe it2
                (List.mem_reverse.mp hm2)).2
            · have := hid it2 (List.mem_cons_of_mem _ hm2)
              omega
          have hpb' : ∀ pc ∈ s1.dirEdges, pc.1 < s1.nextInodeId := by
            intro pc hpc
            rw [hl] at hpc
            rcases List.mem_append.mp hpc with hm2 | hm2
            · have := hpb pc hm2
              omega
            · have h2 := hlf pc hm2
              have h3 := hid item (List.mem_cons_self _ _)
              omega
          rcases List.mem_cons.mp hit with rfl | hmem
          · cases π with
            | nil => simp [entryAtL] at hat
            | cons i ρ =>
              simp only [entryAtL] at hat
              rcases hie : it.children[i]? with _ | e'
              · rw [hie] at hat
                simp at hat
              · rw [hie] at hat
                dsimp only at hat
                by_cases hρ : ρ = []
                · subst hρ
                  rw [if_pos rfl] at hat
                  injection hat with hat
                  subst hat
                  obtain ⟨it', hitm, hch, hdn, hvd, hlo, hhi, hnoe, huq,
                    hfpm, hrwm⟩ :=
                    processEntries_pushes it.children ru rg s it.apath
                      it.vdir it.inodeId
                      (it.ancestors ++ [it.inodeId]) s1 pushed hpe
                      (hid it (List.mem_cons_self _ _)) hpb i e' hie hed
                  have hvp : vpathAt it.vdir it.children [i] =
                      joinPath it.vdir e'.name := by
                    simp [vpathAt, hie]
                  obtain ⟨_, _, ⟨lf2, hlf2⟩, ⟨li2, hli2⟩⟩ :=
                    indexLoopF_mono n (pushed.reverse ++ rest) ru rg s1
                  obtain ⟨row, hrow, hrid, hrty⟩ := hrwm
                  refine ⟨it'.inodeId, ?_, ⟨row, ?_, hrid, hrty⟩, ?_⟩
                  · rw [hvp, hlf2]
                    exact List.mem_append_left _ hfpm
                  · rw [hli2]
                    exact List.mem_append_left _ hrow
                  · intro c
                    refine indexLoopF_no_new_parents n
                      (pushed.reverse ++ rest) ru rg s1 it'.inodeId hhi
                      ?_ c (hnoe c)
                    intro it2 h2 heq
                    rcases List.mem_append.mp h2 with hm2 | hm2
                    · rw [huq it2 (List.mem_reverse.mp hm2) heq]
                      exact hedn
                    · have := hid it2 (List.mem_cons_of_mem _ hm2)
                      omega
                · rw [if_neg hρ] at hat
                  simp only [visOk, hρ, if_false, hie] at hvis
                  rw [Bool.and_eq_true, Bool.and_eq_true] at hvis
                  obtain ⟨⟨hdir2, hnd2⟩, hvis2⟩ := hvis
                  have hnd3 : e'.denied = false := by simpa using hnd2
                  obtain ⟨it', hitm, hch, hdn, hvd, hlo, hhi, hnoe, huq,
                    hfpm, hrwm⟩ :=
                    processEntries_pushes it.children ru rg s it.apath
                      it.vdir it.inodeId
                      (it.ancestors ++ [it.inodeId]) s1 pushed hpe
                      (hid it (List.mem_cons_self _ _)) hpb i e' hie hdir2
                  obtain ⟨id, hfp, hrw, hne⟩ :=
                    ih (pushed.reverse ++ rest) ru rg s1 hmeas hgood' hid'
                      hpb' it'
                      (List.mem_append_left _ (List.mem_reverse.mpr hitm))
                      (by rw [hdn]; exact hnd3) ρ e
                      (by rw [hch]; exact hat) (by rw [hch]; exact hvis2)
                      hed hedn
                  refine ⟨id, ?_, hrw, hne⟩
                  have hvp : vpathAt it.vdir it.children (i :: ρ) =
                      vpathAt (joinPath it.vdir e'.name) e'.children
                        ρ := by
                    simp [vpathAt, hie]
                  rw [hvp, ← hvd, ← hch]
                  exact hfp
          · exact ih (pushed.reverse ++ rest) ru rg s1 hmeas hgood' hid'
              hpb' it (List.mem_append_right _ hmem) hden π e hat hvis hed
              hedn

/-- `index` on a directory path that is not already indexed: the duplicate
check passes and the run is the root creation followed by the traversal
loop, with rollback on a loop error. -/
theorem index_run_eq (ru rg : Nat → Option String) (s : Store) (r : RootDir)
    (hdir : r.isDirPath = true)
    (hdup : existsIndexFor s r.apath = false) :
    index ru rg s r =
      match create_inode ru rg s (basename r.apath) r.apath r.st DIRECTORY
          ("/" ++ basename r.apath) with
      | (s', .error e) => (s', some e)
      | (s1, .ok root_inode) =>
        match indexLoop ru rg (link_parent s1 rootInodeId root_inode)
            [⟨r.apath, "/" ++ basename r.apath, root_inode, [], r.denied,
              r.children⟩] with
        | (sf, none) => (sf, none)
        | (sf, some e) =>
          (rollbackTo (link_parent s1 rootInodeId root_inode) sf, some e)
      := by
  unfold index
  rw [if_neg (not_not_intro hdir), if_neg (by simp [hdup])]

/-- Full behaviour of an `index` call in a benign environment (readable
root, stat and identity lookups succeed everywhere reachable): the call
returns without an exception, every reachable recognized entry gets its
`FullPath` and typed `Inode` rows, and every reachable permission-denied
directory stays a childless `DIRECTORY` leaf. -/
theorem index_traversal_spec (ru rg : Nat → Option String)
    (s : Store) (r : RootDir)
    (hdir : r.isDirPath = true) (hnden : r.denied = false)
    (hdup : existsIndexFor s r.apath = false)
    (hgood : goodRoot ru rg r = true)
    (hpbS : ∀ pc ∈ s.dirEdges, pc.1 < s.nextInodeId)
    (h2le : 2 ≤ s.nextInodeId) :
    (index ru rg s r).2 = none ∧
    (∀ (π : List Nat) (e : FsEntry),
      entryAtL r.children π = some e → visOk r.children π = true →
      classifyEntry e ≠ 0 →
      ∃ id row,
        (id, vpathAt ("/" ++ basename r.apath) r.children π) ∈
          (index ru rg s r).1.fullPaths ∧
        row ∈ (index ru rg s r).1.inodes ∧ row.id = id ∧
        row.node_type = classifyEntry e ∧ row.name = e.name) ∧
    (∀ (π : List Nat) (e : FsEntry),
      entryAtL r.children π = some e → visOk r.children π = true →
      e.isDir = true → e.denied = true →
      ∃ id,
        (id, vpathAt ("/" ++ basename r.apath) r.children π) ∈
          (index ru rg s r).1.fullPaths ∧
        (∃ row, row ∈ (index ru rg s r).1.inodes ∧ row.id = id ∧
          row.node_type = DIRECTORY) ∧
        (∀ c, (id, c) ∉ (index ru rg s r).1.dirEdges)) := by
  have hgd := hgood
  unfold goodRoot at hgd
  rw [Bool.and_eq_true] at hgd
  obtain ⟨hg1, hg2⟩ := hgd
  rcases hst : r.st with _ | m
  · rw [hst] at hg1
    cases hg1
  · rw [hst] at hg1
    rw [Bool.and_eq_true] at hg1
    obtain ⟨hru, hrg⟩ := hg1
    rw [hnden] at hg2
    rw [Bool.false_or] at hg2
    obtain ⟨s1, iid, hcr⟩ := create_inode_ok_of_good s (basename r.apath)
      r.apath DIRECTORY ("/" ++ basename r.apath) hru hrg
    rw [← hst] at hcr
    have hrun := index_run_eq ru rg s r hdir hdup
    rw [hcr] at hrun
    dsimp only at hrun
    obtain ⟨hiid, hn1, he1, _, _, _, _, _⟩ := create_inode_ok_shape hcr
    have hn2 : (link_parent s1 rootInodeId iid).nextInodeId =
        s.nextInodeId + 1 := by
      simp [link_parent, hn1]
    have he2 : (link_parent s1 rootInodeId iid).dirEdges =
        s.dirEdges ++ [(rootInodeId, iid)] := by
      simp [link_parent, he1]
    have hgstack : ∀ it ∈ [(⟨r.apath, "/" ++ basename r.apath, iid, [],
        r.denied, r.children⟩ : StackItem)], it.denied = false →
        goodEntries ru rg it.children = true := by
      intro it hit
      rw [List.mem_singleton] at hit
      subst hit
      intro _
      exact hg2
    have hidstack : ∀ it ∈ [(⟨r.apath, "/" ++ basename r.apath, iid, [],
        r.denied, r.children⟩ : StackItem)],
        it.inodeId < (link_parent s1 rootInodeId iid).nextInodeId := by
      intro it hit
      rw [List.mem_singleton] at hit
      subst hit
      show iid < _
      rw [hn2, hiid]
      omega
    have hpb2 : ∀ pc ∈ (link_parent s1 rootInodeId iid).dirEdges,
        pc.1 < (link_parent s1 rootInodeId iid).nextInodeId := by
      intro pc hpc
      rw [he2] at hpc
      rw [hn2]
      rcases List.mem_append.mp hpc with hm2 | hm2
      · have := hpbS pc hm2
        omega
      · rw [List.mem_singleton] at hm2
        subst hm2
        show rootInodeId < _
        have h1 : rootInodeId = 1 := rfl
        omega
    rcases hLoop : indexLoop ru rg (link_parent s1 rootInodeId iid)
        [⟨r.apath, "/" ++ basename r.apath, iid, [], r.denied,
          r.children⟩] with ⟨sf, oe⟩
    have hLoop2 : indexLoopF ru rg
        (stackMeasure [⟨r.apath, "/" ++ basename r.apath, iid, [],
          r.denied, r.children⟩])
        (link_parent s1 rootInodeId iid)
        [⟨r.apath, "/" ++ basename r.apath, iid, [], r.denied,
          r.children⟩] = (sf, oe) := hLoop
    have hok := indexLoopF_ok_of_good
      (stackMeasure [⟨r.apath, "/" ++ basename r.apath, iid, [], r.denied,
        r.children⟩])
      [⟨r.apath, "/" ++ basename r.apath, iid, [], r.denied, r.children⟩]
      ru rg (link_parent s1 rootInodeId iid) hgstack
    rw [hLoop2] at hok
    have hoe : oe = none := hok
    subst hoe
    rw [hLoop] at hrun
    dsimp only at hrun
    rw [hrun]
    refine ⟨rfl, ?_, ?_⟩
    · intro π e hat hvis hcl
      obtain ⟨id, row, hfp, hrow, h1, h2, h3⟩ :=
        indexLoopF_visits
          (stackMeasure [⟨r.apath, "/" ++ basename r.apath, iid, [],
            r.denied, r.children⟩])
          [⟨r.apath, "/" ++ basename r.apath, iid, [], r.denied,
            r.children⟩]
          ru rg (link_parent s1 rootInodeId iid) (le_refl _) hgstack
          hidstack hpb2
          ⟨r.apath, "/" ++ basename r.apath, iid, [], r.denied,
            r.children⟩
          (List.mem_cons_self _ _) hnden π e hat hvis hcl
      rw [hLoop2] at hfp hrow
      exact ⟨id, row, hfp, hrow, h1, h2, h3⟩
    · intro π e hat hvis hed hedn
      obtain ⟨id, hfp, ⟨row, hrow, h1, h2⟩, hne⟩ :=
        indexLoopF_denied_leaf
          (stackMeasure [⟨r.apath, "/" ++ basename r.apath, iid, [],
            r.denied, r.children⟩])
          [⟨r.apath, "/" ++ basename r.apath, iid, [], r.denied,
            r.children⟩]
          ru rg (link_parent s1 rootInodeId iid) (le_refl _) hgstack
          hidstack hpb2
          ⟨r.apath, "/" ++ basename r.apath, iid, [], r.denied,
            r.children⟩
          (List.mem_cons_self _ _) hnden π e hat hvis hed hedn
      rw [hLoop2] at hfp hrow
      refine ⟨id, hfp, ⟨row, hrow, h1, h2⟩, ?_⟩
      intro c
      have := hne c
      rw [hLoop2] at this
      exact this

/-! ## Claim C4 -/

/-- C4: for every directory tree in which enumerating one subdirectory's
contents raises `PermissionError`, `index` still indexes every reachable
recognized entry (all siblings of the denied directory and all subtrees
queued around it get their `FullPath` and `Inode` rows), the
permission-denied directory itself remains a childless `DIRECTORY` leaf
(no `Directory` edge ever leaves it), and the `index` call returns without
an exception: the `except PermissionError` handler prints and continues
the loop. -/
theorem index_tolerates_permission_errors (ru rg : Nat → Option String)
    (s : Store) (r : RootDir)
    (hdir : r.isDirPath = true) (hnden : r.denied = false)
    (hdup : existsIndexFor s r.apath = false)
    (hgood : goodRoot ru rg r = true)
    (hpbS : ∀ pc ∈ s.dirEdges, pc.1 < s.nextInodeId)
    (h2le : 2 ≤ s.nextInodeId) :
    (index ru rg s r).2 = none ∧
    (∀ (π : List Nat) (e : FsEntry),
      entryAtL r.children π = some e → visOk r.children π = true →
      classifyEntry e ≠ 0 →
      ∃ id row,
        (id, vpathAt ("/" ++ basename r.apath) r.children π) ∈
          (index ru rg s r).1.fullPaths ∧
        row ∈ (index ru rg s r).1.inodes ∧ row.id = id ∧
        row.node_type = classifyEntry e ∧ row.name = e.name) ∧
    (∀ (π : List Nat) (e : FsEntry),
      entryAtL r.children π = some e → visOk r.children π = true →
      e.isDir = true → e.denied = true →
      ∃ id,
        (id, vpathAt ("/" ++ basename r.apath) r.children π) ∈
          (index ru rg s r).1.fullPaths ∧
        (∃ row, row ∈ (index ru rg s r).1.inodes ∧ row.id = id ∧
          row.node_type = DIRECTORY) ∧
        (∀ c, (id, c) ∉ (index ru rg s r).1.dirEdges)) :=
  index_traversal_spec ru rg s r hdir hnden hdup hgood hpbS h2le

theorem index_tolerates_permission_errors_witness :
    goodRoot ru0 rg0 denTree = true ∧
    (index ru0 rg0 initStore denTree).2 = none ∧
    (∃ id row,
      (id, vpathAt ("/" ++ basename denTree.apath) denTree.children [1]) ∈
        (index ru0 rg0 initStore denTree).1.fullPaths ∧
      row ∈ (index ru0 rg0 initStore denTree).1.inodes ∧ row.id = id ∧
      row.node_type = FILE ∧ row.name = "sib") ∧
    (∃ id,
      (id, vpathAt ("/" ++ basename denTree.apath) denTree.children [0]) ∈
        (index ru0 rg0 initStore denTree).1.fullPaths ∧
      (∃ row, row ∈ (index ru0 rg0 initStore denTree).1.inodes ∧
        row.id = id ∧ row.node_type = DIRECTORY) ∧
      (∀ c, (id, c) ∉ (index ru0 rg0 initStore denTree).1.dirEdges)) := by
  have h := index_tolerates_permission_errors ru0 rg0 initStore denTree
    rfl rfl (by decide) (by decide) (by decide) (by decide)
  exact ⟨by decide, h.1,
    h.2.1 [1] (.node "sib" false true false (some stat0) false [])
      rfl rfl (by decide),
    h.2.2 [0] (.node "locked" true false false (some stat0) true
        [.node "hidden" false true false (some stat0) false []])
      rfl rfl rfl rfl⟩

/-! ## Claim C9 -/

theorem classifyEntry_eq_softlink (e : FsEntry) :
    classifyEntry e = SOFTLINK ↔
      e.isDir = false ∧ e.isFile = false ∧ e.isSymlink = true := by
  cases e with
  | node n d f l st dn cs =>
    cases d <;> cases f <;> cases l <;>
      simp [classifyEntry, FsEntry.isDir, FsEntry.isFile,
        FsEntry.isSymlink, DIRECTORY, FILE, SOFTLINK]

theorem entryAtL_append_child :
    ∀ (π : List Nat) (es : List FsEntry) (e : FsEntry) (j : Nat)
      (c : FsEntry),
      entryAtL es π = some e → e.children[j]? = some c →
      entryAtL es (π ++ [j]) = some c := by
  intro π
  induction π with
  | nil =>
    intro es e j c h hc
    simp [entryAtL] at h
  | cons i ρ ih =>
    intro es e j c h hc
    simp only [entryAtL, List.cons_append] at h ⊢
    rcases hie : es[i]? with _ | e'
    · rw [hie] at h
      simp at h
    · rw [hie] at h
      dsimp only at h ⊢
      rw [if_neg (by simp : ¬(ρ.append [j] = []))]
      by_cases hρ : ρ = []
      · subst hρ
        rw [if_pos rfl] at h
        injection h with h
        subst h
        simp [entryAtL, hc]
      · rw [if_neg hρ] at h
        exact ih e'.children e j c h hc

theorem visOk_append_child :
    ∀ (π : List Nat) (es : List FsEntry) (e : FsEntry) (j : Nat),
      entryAtL es π = some e → visOk es π = true →
      e.isDir = true → e.denied = false →
      visOk es (π ++ [j]) = true := by
  intro π
  induction π with
  | nil =>
    intro es e j h hvis hed hedn
    simp [entryAtL] at h
  | cons i ρ ih =>
    intro es e j h hvis hed hedn
    simp only [entryAtL] at h
    simp only [visOk, List.cons_append] at hvis ⊢
    rcases hie : es[i]? with _ | e'
    · rw [hie] at h
      simp at h
    · rw [hie] at h hvis
      dsimp only at h hvis ⊢
      rw [if_neg (by simp : ¬(ρ.append [j] = []))]
      by_cases hρ : ρ = []
      · subst hρ
        rw [if_pos rfl] at h
        injection h with h
        subst h
        rw [Bool.and_eq_true, Bool.and_eq_true]
        refine ⟨⟨hed, by simp [hedn]⟩, ?_⟩
        simp [visOk]
      · rw [if_neg hρ] at h
        rw [if_neg hρ] at hvis
        rw [Bool.and_eq_true, Bool.and_eq_true] at hvis
        obtain ⟨⟨h1, h2⟩, h3⟩ := hvis
        rw [Bool.and_eq_true, Bool.and_eq_true]
        exact ⟨⟨h1, h2⟩, ih e'.children e j h h3 hed hedn⟩

/-- C9: `index` classifies entries after symlink resolution (the
`entry.is_dir()` / `is_file()` branches of the source follow links): any
entry reported as a directory — a symlink to a directory included — is
classified and stored with `node_type = DIRECTORY` and pushed onto the
traversal stack, so that when it is readable each recognized entry of its
target is indexed beneath the link's own virtual path; `SOFTLINK` is
assigned exactly to the entries that are neither a directory nor a regular
file after resolution but are symlinks (e.g. broken links). -/
theorem symlink_dir_indexed_as_directory (ru rg : Nat → Option String)
    (s : Store) (r : RootDir)
    (hdir : r.isDirPath = true) (hnden : r.denied = false)
    (hdup : existsIndexFor s r.apath = false)
    (hgood : goodRoot ru rg r = true)
    (hpbS : ∀ pc ∈ s.dirEdges, pc.1 < s.nextInodeId)
    (h2le : 2 ≤ s.nextInodeId) :
    (∀ e : FsEntry, e.isDir = true → classifyEntry e = DIRECTORY) ∧
    (∀ e : FsEntry, classifyEntry e = SOFTLINK ↔
      e.isDir = false ∧ e.isFile = false ∧ e.isSymlink = true) ∧
    (∀ (π : List Nat) (e : FsEntry),
      entryAtL r.children π = some e → visOk r.children π = true →
      e.isDir = true →
      (∃ id row,
        (id, vpathAt ("/" ++ basename r.apath) r.children π) ∈
          (index ru rg s r).1.fullPaths ∧
        row ∈ (index ru rg s r).1.inodes ∧ row.id = id ∧
        row.node_type = DIRECTORY ∧ row.name = e.name) ∧
      (e.denied = false → ∀ (j : Nat) (c : FsEntry),
        e.children[j]? = some c → classifyEntry c ≠ 0 →
        ∃ id row,
          (id, vpathAt ("/" ++ basename r.apath) r.children (π ++ [j])) ∈
            (index ru rg s r).1.fullPaths ∧
          row ∈ (index ru rg s r).1.inodes ∧ row.id = id ∧
          row.node_type = classifyEntry c ∧ row.name = c.name)) := by
  obtain ⟨hnone, hvisit, hleaf⟩ :=
    index_traversal_spec ru rg s r hdir hnden hdup hgood hpbS h2le
  refine ⟨fun e he => (classifyEntry_eq_dir e).mpr he,
    classifyEntry_eq_softlink, ?_⟩
  intro π e hat hvis hed
  constructor
  · have hcd : classifyEntry e = DIRECTORY :=
      (classifyEntry_eq_dir e).mpr hed
    have hcl : classifyEntry e ≠ 0 := by
      rw [hcd]
      decide
    obtain ⟨id, row, hfp, hrow, h1, h2, h3⟩ := hvisit π e hat hvis hcl
    rw [hcd] at h2
    exact ⟨id, row, hfp, hrow, h1, h2, h3⟩
  · intro hnd j c hc hclc
    exact hvisit (π ++ [j]) c
      (entryAtL_append_child π r.children e j c hat hc)
      (visOk_append_child π r.children e j hat hvis hed hnd) hclc

theorem symlink_dir_indexed_as_directory_witness :
    goodRoot ru0 rg0 denTree = true ∧
    (∃ id row,
      (id, vpathAt ("/" ++ basename denTree.apath) denTree.children [2]) ∈
        (index ru0 rg0 initStore denTree).1.fullPaths ∧
      row ∈ (index ru0 rg0 initStore denTree).1.inodes ∧ row.id = id ∧
      row.node_type = DIRECTORY ∧ row.name = "sub") ∧
    (∃ id row,
      (id, vpathAt ("/" ++ basename denTree.apath) denTree.children
          ([2] ++ [0])) ∈
        (index ru0 rg0 initStore denTree).1.fullPaths ∧
      row ∈ (index ru0 rg0 initStore denTree).1.inodes ∧ row.id = id ∧
      row.node_type = FILE ∧ row.name = "inner") := by
  have h := symlink_dir_indexed_as_directory ru0 rg0 initStore denTree
    rfl rfl (by decide) (by decide) (by decide) (by decide)
  have h2 := h.2.2 [2] (.node "sub" true false true (some stat0) false
    [.node "inner" false true false (some stat0) false []]) rfl rfl rfl
  exact ⟨by decide, h2.1, h2.2 rfl 0
    (.node "inner" false true false (some stat0) false []) rfl (by decide)⟩

end OfflineFs
